import Mathlib

/-!
Verification of the `simd_util` DSP core against its specification.

The Rust sources are shallowly embedded: SIMD vectors of `f32` lanes are
modelled lane-wise over exact arithmetic (a field `K`, instantiated at
`ℚ` for ring/field-only code and at `ℝ` where the transcendental
`exp2`/`log2`/`pow` kernels occur), stateful methods become pure
state-passing functions, and fallible operations return `Option`.
-/

namespace SimdUtil

/-! ## Interpolation helpers (src/dsp.rs) -/

/-- `cubic_interp` from `src/dsp.rs`, translated verbatim: note that the
final expression is `a * mu * mu2 + b * mu2 * c * mu + y1`, i.e. the
second and third monomials are multiplied instead of added. -/
def cubic_interp (y0 y1 y2 y3 mu : ℚ) : ℚ :=
  let a := y3 - y2 - y0 + y1
  let b := y0 - y1 - a
  let c := y2 - y0
  let mu2 := mu * mu
  a * mu * mu2 + b * mu2 * c * mu + y1

/-- The Paul Bourke cubic interpolation polynomial
`a*mu^3 + b*mu^2 + c*mu + y1`, as demanded by the specification
(this is the intended formula, modelled from the spec's words). -/
def cubicInterpSpec (y0 y1 y2 y3 mu : ℚ) : ℚ :=
  let a := y3 - y2 - y0 + y1
  let b := y0 - y1 - a
  let c := y2 - y0
  a * mu ^ 3 + b * mu ^ 2 + c * mu + y1

/-! ## SIMD stereo-lane helpers (src/util.rs, src/simd_util.rs)

A SIMD vector of width `2 * V` (`V = STEREO_VOICES_PER_VECTOR`) is a
function `Fin (2 * V) → α`; lane `2k` is voice `k` left, `2k + 1` voice
`k` right. -/

/-- `split_stereo`: reinterpret a vector as an array of `V` adjacent
lane pairs (`src/util.rs`). -/
def split_stereo {α : Type} {V : ℕ} (v : Fin (2 * V) → α) (j : Fin V) : α × α :=
  (v ⟨2 * j.val, by omega⟩, v ⟨2 * j.val + 1, by omega⟩)

/-- `splat_stereo`: broadcast one stereo pair across the whole vector via
the `ZERO_ONE` swizzle (`0` at even lanes, `1` at odd lanes). -/
def splat_stereo {α : Type} {V : ℕ} (p : α × α) : Fin (2 * V) → α :=
  fun l => if l.val % 2 = 0 then p.1 else p.2

/-- `splat_slot` (`src/util.rs`): `array.get(index)` yields `none` out of
bounds, otherwise the selected stereo pair is broadcast. -/
def splat_slot {α : Type} {V : ℕ} (v : Fin (2 * V) → α) (index : ℕ) :
    Option (Fin (2 * V) → α) :=
  if h : index < V then some (splat_stereo (split_stereo v ⟨index, h⟩)) else none

/-! ## Smoothers (src/smoothing.rs)

One lane of each smoother, over exact arithmetic.  The polynomial
approximations `exp2`, `log2` and `pow` from `src/math.rs` are modelled
by the exact real functions they approximate. -/

/-- Exact model of `math::exp2`. -/
noncomputable def exp2 (x : ℝ) : ℝ := (2 : ℝ) ^ x

/-- Exact model of `math::log2`. -/
noncomputable def log2 (x : ℝ) : ℝ := Real.logb 2 x

/-- One lane of `LogSmoother`: fields `factor` and `value`. -/
structure LogSmoother (K : Type) where
  factor : K
  value : K

namespace LogSmoother

/-- `set_target`: `factor = exp2(log2(target / value) / t)` (the
transcendental kernels force the `ℝ` instance here). -/
noncomputable def set_target (s : LogSmoother ℝ) (target t : ℝ) : LogSmoother ℝ :=
  { s with factor := exp2 (log2 (target / s.value) / t) }

/-- `set_val_instantly` (called `set_instantly` in the filter sources). -/
def set_val_instantly {K : Type} [Field K] (s : LogSmoother K) (target : K) :
    LogSmoother K :=
  { s with value := target, factor := 1 }

/-- `tick1`: `value *= factor`. -/
def tick1 {K : Type} [Field K] (s : LogSmoother K) : LogSmoother K :=
  { s with value := s.value * s.factor }

/-- `get_current`. -/
def get_current {K : Type} (s : LogSmoother K) : K := s.value

end LogSmoother

/-- One lane of `LinearSmoother`: fields `increment` and `value`. -/
structure LinearSmoother (K : Type) where
  increment : K
  value : K

namespace LinearSmoother

/-- `set_target`: `increment = (target - value) / t`. -/
def set_target {K : Type} [Field K] (s : LinearSmoother K) (target t : K) :
    LinearSmoother K :=
  { s with increment := (target - s.value) / t }

/-- `tick`: `value += increment * t`. -/
def tick {K : Type} [Field K] (s : LinearSmoother K) (t : K) : LinearSmoother K :=
  { s with value := s.value + s.increment * t }

/-- `tick1`: `value += increment`. -/
def tick1 {K : Type} [Field K] (s : LinearSmoother K) : LinearSmoother K :=
  { s with value := s.value + s.increment }

/-- `get_current`. -/
def get_current {K : Type} (s : LinearSmoother K) : K := s.value

end LinearSmoother

/-- `Bounded<LinearSmoother>`: the wrapper stores the remaining horizon
`t` next to the inner smoother (over `ℚ`; only field and order
operations occur). -/
structure BoundedLin where
  t : ℚ
  smoother : LinearSmoother ℚ

namespace BoundedLin

/-- `set_target`: forward, then remember the horizon. -/
def set_target (s : BoundedLin) (target t : ℚ) : BoundedLin :=
  { t := t, smoother := s.smoother.set_target target t }

/-- `tick`: clamp the elapsed time to the remaining horizon, forward the
clamped amount, and decrement the horizon. -/
def tick (s : BoundedLin) (t : ℚ) : BoundedLin :=
  let t0 := min t s.t
  { t := s.t - t0, smoother := s.smoother.tick t0 }

/-- `tick1`: the source forwards an *unclamped* unit tick to the inner
smoother (`self.smoother.tick(ONE)`) and does not touch the horizon. -/
def tick1 (s : BoundedLin) : BoundedLin :=
  { s with smoother := s.smoother.tick 1 }

/-- `get_current`. -/
def get_current (s : BoundedLin) : ℚ := s.smoother.get_current

end BoundedLin

/-! ## Integrator (src/filter.rs) -/

/-- TPT integrator: one state lane `s`; `tick` returns
`(updated integrator, output)` with `y = x + s` and `s ← y + x`. -/
structure Integrator (K : Type) where
  s : K

namespace Integrator

/-- `Integrator::tick`. -/
def tick {K : Type} [Field K] (i : Integrator K) (sample : K) : Integrator K × K :=
  let output := sample + i.s
  ({ s := output + sample }, output)

/-- `Integrator::get_current`. -/
def get_current {K : Type} (i : Integrator K) : K := i.s

end Integrator

/-! ## One-pole filter (src/filter/one_pole.rs), one lane over `ℚ` -/

structure OnePole where
  g1 : LogSmoother ℚ
  k : LogSmoother ℚ
  s : Integrator ℚ
  lp : ℚ
  x : ℚ

namespace OnePole

/-- `OnePole::process`: `lp = s.tick((x - s) * g1)`, remember `x`. -/
def process (f : OnePole) (x : ℚ) : OnePole :=
  let s := f.s.get_current
  let g1 := f.g1.get_current
  let r := f.s.tick ((x - s) * g1)
  { f with s := r.1, lp := r.2, x := x }

/-- `OnePole::get_lowpass`. -/
def get_lowpass (f : OnePole) : ℚ := f.lp

/-- `OnePole::get_highpass`: `x - lp`. -/
def get_highpass (f : OnePole) : ℚ := f.x - f.lp

end OnePole

/-! ## State-variable filter (src/filter/svf.rs), one lane over `ℚ` -/

structure SVF where
  g : LogSmoother ℚ
  r : LogSmoother ℚ
  k : LogSmoother ℚ
  s1 : Integrator ℚ
  s2 : Integrator ℚ
  x : ℚ
  hp : ℚ
  bp : ℚ
  lp : ℚ

namespace SVF

/-- `SVF::process`: with `g1 = r + g`,
`hp = g1.mul_add(-s1, x - s2) / g1.mul_add(g, 1)`, then the two
integrators are ticked with pre-gained inputs `hp * g` and `bp * g`,
and the input is remembered. -/
def process (f : SVF) (sample : ℚ) : SVF :=
  let g := f.g.get_current
  let s1 := f.s1.get_current
  let s2 := f.s2.get_current
  let g1 := f.r.get_current + g
  let hp := (g1 * (-s1) + (sample - s2)) / (g1 * g + 1)
  let r1 := f.s1.tick (hp * g)
  let r2 := f.s2.tick (r1.2 * g)
  { f with hp := hp, bp := r1.2, lp := r2.2, s1 := r1.1, s2 := r2.1, x := sample }

end SVF

end SimdUtil

namespace SimdUtil

/-! ## Claim theorems: filters, smoothers, interpolation, SIMD helpers -/

/-- Claim C9: `cubic_interp` is supposed to compute the Paul Bourke
polynomial `a*mu^3 + b*mu^2 + c*mu + y1`; at the concrete input
`(y0, y1, y2, y3, mu) = (0, 0, 1, 1, 1/2)` the code returns `0` while
the specified polynomial yields `1/2` (the source multiplies the
`b*mu^2` and `c*mu` monomials instead of adding them). -/
theorem cubic_interp_code_bug :
    cubic_interp 0 0 1 1 (1 / 2) = 0 ∧
      cubicInterpSpec 0 0 1 1 (1 / 2) = 1 / 2 ∧
      cubic_interp 0 0 1 1 (1 / 2) ≠ cubicInterpSpec 0 0 1 1 (1 / 2) := by
  refine ⟨by norm_num [cubic_interp], by norm_num [cubicInterpSpec], ?_⟩
  norm_num [cubic_interp, cubicInterpSpec]

/-- Claim C10: `splat_slot v i` is `none` exactly when
`i ≥ STEREO_VOICES_PER_VECTOR`; otherwise it is `some` of the vector
whose lane `l` holds lane `2*i + l % 2` of `v`, i.e. even lanes hold
lane `2*i` and odd lanes hold lane `2*i + 1`, and only the in-bounds
lanes `2*i` and `2*i + 1` of `v` are ever read. -/
theorem splat_slot_spec {α : Type} {V : ℕ} (v : Fin (2 * V) → α) (i : ℕ) :
    splat_slot v i =
      (if h : i < V then
        some (fun l : Fin (2 * V) => v ⟨2 * i + l.val % 2, by omega⟩)
       else none) ∧
      (splat_slot v i = none ↔ V ≤ i) := by
  constructor
  · by_cases h : i < V
    · rw [splat_slot, dif_pos h, dif_pos h]
      refine congrArg some (funext fun l => ?_)
      rcases Nat.mod_two_eq_zero_or_one l.val with hl | hl
      · rw [splat_stereo, if_pos hl, split_stereo]
        exact congrArg v (Fin.ext (by simp [hl]))
      · rw [splat_stereo, if_neg (by omega), split_stereo]
        exact congrArg v (Fin.ext (by simp [hl]))
    · simp [splat_slot, h]
  · by_cases h : i < V <;> simp [splat_slot, h] <;> omega

/-- Claim C8: after `OnePole::process(x)`, the lowpass and highpass
outputs sum exactly to the input sample just processed. -/
theorem one_pole_low_high_complementary (f : OnePole) (x : ℚ) :
    (f.process x).get_lowpass + (f.process x).get_highpass = x := by
  simp [OnePole.process, OnePole.get_lowpass, OnePole.get_highpass]

/-- Claim C5: `SVF::process(x)` with current smoother values `g` and `r`,
integrator states `s1`, `s2` and `g1 = r + g` stores
`hp = ((x - s2) - g1*s1) / (1 + g*g1)`, stores `bp` by ticking the first
integrator with input `hp * g`, stores `lp` by ticking the second
integrator with input `bp * g`, and remembers `x`. -/
theorem svf_process_spec (f : SVF) (x : ℚ) :
    (f.process x).hp =
        ((x - f.s2.get_current) - (f.r.get_current + f.g.get_current) * f.s1.get_current) /
          (1 + f.g.get_current * (f.r.get_current + f.g.get_current)) ∧
      (f.process x).bp = (f.s1.tick ((f.process x).hp * f.g.get_current)).2 ∧
      (f.process x).s1 = (f.s1.tick ((f.process x).hp * f.g.get_current)).1 ∧
      (f.process x).lp = (f.s2.tick ((f.process x).bp * f.g.get_current)).2 ∧
      (f.process x).s2 = (f.s2.tick ((f.process x).bp * f.g.get_current)).1 ∧
      (f.process x).x = x := by
  refine ⟨?_, by simp [SVF.process], by simp [SVF.process], by simp [SVF.process],
    by simp [SVF.process], by simp [SVF.process]⟩
  simp only [SVF.process]
  ring_nf

/-! ## Smoother convergence (Claim C6) -/

/-- Iterating `LinearSmoother::tick1` adds the increment once per step. -/
theorem linearSmoother_tick1_iterate (s : LinearSmoother ℝ) (k : ℕ) :
    LinearSmoother.tick1^[k] s =
      { increment := s.increment, value := s.value + k * s.increment } := by
  induction k generalizing s with
  | zero => simp
  | succ k ih =>
      rw [Function.iterate_succ_apply, ih]
      simp only [LinearSmoother.tick1]
      refine congrArg _ ?_
      push_cast
      ring

/-- Iterating `LogSmoother::tick1` multiplies by the factor once per step. -/
theorem logSmoother_tick1_iterate (s : LogSmoother ℝ) (k : ℕ) :
    LogSmoother.tick1^[k] s =
      { factor := s.factor, value := s.value * s.factor ^ k } := by
  induction k generalizing s with
  | zero => simp
  | succ k ih =>
      rw [Function.iterate_succ_apply, ih]
      simp only [LogSmoother.tick1]
      refine congrArg _ ?_
      ring

/-- Claim C6: after `set_target(T, n)` with positive `n` and `n` single
ticks, the linear smoother's current value is exactly `T` for every
target `T`; the log smoother's is exactly `T` provided its current
value and the target are strictly positive (the claim scopes positivity
to the log case); in each case the value lands within
`1e-5 * max(|T|, 1)` of `T`. -/
theorem smoother_convergence (lin : LinearSmoother ℝ) (lg : LogSmoother ℝ)
    (T : ℝ) (n : ℕ) (hn : 0 < n) :
    (LinearSmoother.tick1^[n] (lin.set_target T n)).value = T ∧
      |(LinearSmoother.tick1^[n] (lin.set_target T n)).value - T| <
        1 / 100000 * max |T| 1 ∧
      (0 < lg.value → 0 < T →
        (LogSmoother.tick1^[n] (lg.set_target T n)).value = T ∧
        |(LogSmoother.tick1^[n] (lg.set_target T n)).value - T| <
          1 / 100000 * max |T| 1) := by
  have hne : (n : ℝ) ≠ 0 := Nat.cast_ne_zero.mpr hn.ne'
  have hband : (0 : ℝ) < 1 / 100000 * max |T| 1 := by positivity
  have hlin : (LinearSmoother.tick1^[n] (lin.set_target T n)).value = T := by
    rw [linearSmoother_tick1_iterate]
    simp only [LinearSmoother.set_target]
    field_simp
  refine ⟨hlin, by rw [hlin]; simpa using hband, ?_⟩
  intro hc hT
  have hlog : (LogSmoother.tick1^[n] (lg.set_target T n)).value = T := by
    rw [logSmoother_tick1_iterate]
    simp only [LogSmoother.set_target, exp2, log2]
    rw [← Real.rpow_natCast ((2 : ℝ) ^ (Real.logb 2 (T / lg.value) / n)) n,
      ← Real.rpow_mul (by norm_num), div_mul_cancel₀ _ hne,
      Real.rpow_logb (by norm_num) (by norm_num) (div_pos hT hc),
      mul_div_cancel₀ _ hc.ne']
  exact ⟨hlog, by rw [hlog]; simpa using hband⟩

/-- Witness for `smoother_convergence`: the linear smoother `⟨0, 1⟩`
ramps to the nonpositive target `T = -3` in `n = 2` ticks, and the log
smoother `⟨1, 1⟩` reaches `T = 4` in `n = 2` ticks. -/
theorem smoother_convergence_witness :
    (LinearSmoother.tick1^[2]
      ((⟨0, 1⟩ : LinearSmoother ℝ).set_target (-3) 2)).value = -3 ∧
      (LogSmoother.tick1^[2] ((⟨1, 1⟩ : LogSmoother ℝ).set_target 4 2)).value = 4 :=
  ⟨(smoother_convergence ⟨0, 1⟩ ⟨1, 1⟩ (-3) 2 (by norm_num)).1,
    ((smoother_convergence ⟨0, 1⟩ ⟨1, 1⟩ 4 2 (by norm_num)).2.2
      (by norm_num) (by norm_num)).1⟩

/-! ## Bounded smoother (Claim C7) -/

/-- Folding `Bounded::tick` over a list of nonnegative elapsed times
consumes `min(total, remaining horizon)` of ramp time in total. -/
theorem BoundedLin.tick_fold (ts : List ℚ) (s : BoundedLin) (hs : 0 ≤ s.t)
    (hts : ∀ t ∈ ts, 0 ≤ t) :
    (ts.foldl BoundedLin.tick s).t = max (s.t - ts.sum) 0 ∧
      (ts.foldl BoundedLin.tick s).smoother.increment = s.smoother.increment ∧
      (ts.foldl BoundedLin.tick s).smoother.value =
        s.smoother.value + s.smoother.increment * (s.t - max (s.t - ts.sum) 0) := by
  induction ts generalizing s with
  | nil =>
      refine ⟨?_, rfl, ?_⟩
      · rw [List.foldl_nil, List.sum_nil, sub_zero, max_eq_left hs]
      · rw [List.foldl_nil, List.sum_nil, sub_zero, max_eq_left hs]; ring
  | cons t ts ih =>
      have ht : 0 ≤ t := hts t (List.mem_cons_self t ts)
      have hts' : ∀ u ∈ ts, 0 ≤ u := fun u hu => hts u (List.mem_cons_of_mem t hu)
      have hsum : 0 ≤ ts.sum := List.sum_nonneg hts'
      have hs' : 0 ≤ (BoundedLin.tick s t).t := by
        simp only [BoundedLin.tick, sub_nonneg]
        exact min_le_right t s.t
      obtain ⟨h1, h2, h3⟩ := ih (BoundedLin.tick s t) hs' hts'
      have hmax : (BoundedLin.tick s t).t - ts.sum = s.t - (t :: ts).sum ∨
          (max ((BoundedLin.tick s t).t - ts.sum) 0 = 0 ∧
            max (s.t - (t :: ts).sum) 0 = 0) := by
        simp only [BoundedLin.tick, List.sum_cons]
        rcases le_total t s.t with h | h
        · left; rw [min_eq_left h]; ring
        · right
          constructor
          · rw [min_eq_right h, sub_self, zero_sub, max_eq_right (by linarith)]
          · rw [max_eq_right (by linarith)]
      have hmaxeq : max ((BoundedLin.tick s t).t - ts.sum) 0 =
          max (s.t - (t :: ts).sum) 0 := by
        rcases hmax with h | ⟨h1, h2⟩
        · rw [h]
        · rw [h1, h2]
      refine ⟨by rw [List.foldl_cons, h1, hmaxeq], by rw [List.foldl_cons, h2]; rfl, ?_⟩
      rw [List.foldl_cons, h3, hmaxeq]
      simp only [BoundedLin.tick, LinearSmoother.tick]
      ring

/-- Counterexample to Claim C7 as stated: with `Bounded<LinearSmoother>`
starting at `0`, after `set_target(1, 1)` the value reached after
`n = 1` samples is the target `1`, yet two `tick1` calls (total elapsed
time `2 > n`) leave `get_current()` at `2`: `tick1` forwards an
unclamped unit tick to the inner smoother, bypassing the bound. -/
theorem bounded_tick1_overshoots :
    ((((⟨0, ⟨0, 0⟩⟩ : BoundedLin).set_target 1 1).tick1).tick1).get_current = 2 ∧
      (((⟨0, ⟨0, 0⟩⟩ : BoundedLin).set_target 1 1).tick1).get_current = 1 ∧
      (2 : ℚ) ≠ 1 := by
  refine ⟨?_, ?_, by norm_num⟩ <;>
    norm_num [BoundedLin.set_target, BoundedLin.tick1, BoundedLin.get_current,
      LinearSmoother.set_target, LinearSmoother.tick, LinearSmoother.get_current]

/-- Claim C7, amended: for `Bounded<LinearSmoother>`, after
`set_target(T, n)` with `n > 0`, any sequence of `tick` calls with
nonnegative elapsed times totalling at least `n` leaves `get_current()`
exactly at the target `T`, and any further `tick` has no effect
(`tick1`, by contrast, bypasses the clamp as shown separately). -/
theorem bounded_tick_no_overshoot (b : BoundedLin) (T n : ℚ) (ts : List ℚ)
    (hn : 0 < n) (hts : ∀ t ∈ ts, 0 ≤ t) (hsum : n ≤ ts.sum) :
    (ts.foldl BoundedLin.tick (b.set_target T n)).get_current = T ∧
      ∀ u : ℚ, 0 ≤ u →
        ((ts.foldl BoundedLin.tick (b.set_target T n)).tick u).get_current = T := by
  have hstart : (b.set_target T n).t = n := rfl
  obtain ⟨h1, _h2, h3⟩ := BoundedLin.tick_fold ts (b.set_target T n)
    (by rw [hstart]; exact hn.le) hts
  have hmax0 : max ((b.set_target T n).t - ts.sum) 0 = 0 := by
    rw [hstart]; exact max_eq_right (by linarith)
  have hval : (ts.foldl BoundedLin.tick (b.set_target T n)).get_current = T := by
    rw [BoundedLin.get_current, LinearSmoother.get_current, h3, hmax0, hstart]
    simp only [BoundedLin.set_target, LinearSmoother.set_target]
    field_simp
  refine ⟨hval, fun u hu => ?_⟩
  have hT0 : (ts.foldl BoundedLin.tick (b.set_target T n)).t = 0 := by
    rw [h1, hmax0]
  rw [BoundedLin.get_current, BoundedLin.tick, hT0] at *
  simp only [min_eq_right hu, LinearSmoother.tick, LinearSmoother.get_current] at *
  rw [mul_zero, add_zero]
  exact hval

/-- Witness for `bounded_tick_no_overshoot` at `b = ⟨5, ⟨7, 0⟩⟩`,
`T = 1`, `n = 1`, elapsed times `[1/2, 3/4]`. -/
theorem bounded_tick_no_overshoot_witness :
    ([(1 : ℚ)/2, 3/4].foldl BoundedLin.tick
        ((⟨5, ⟨7, 0⟩⟩ : BoundedLin).set_target 1 1)).get_current = 1 ∧
      ∀ u : ℚ, 0 ≤ u →
        (([(1 : ℚ)/2, 3/4].foldl BoundedLin.tick
            ((⟨5, ⟨7, 0⟩⟩ : BoundedLin).set_target 1 1)).tick u).get_current = 1 :=
  bounded_tick_no_overshoot ⟨5, ⟨7, 0⟩⟩ 1 1 [1/2, 3/4] (by norm_num)
    (by intro t ht; fin_cases ht <;> norm_num) (by norm_num)

/-! ## Audio graph (src/dsp/graph.rs)

`Vec` becomes `List`; Rust's `Vec::pop`-from-the-end worklists are
represented with the stack top at the list head (pushes become `cons`,
and the in-order seeding of the worklist is reversed accordingly).
Out-of-bounds indexing, which panics in Rust, is modelled by total
`getD`-style access; every use site is proved in bounds. -/

/-- Total read with default; `getD l i d` is `l[i]` when `i` is in
bounds. -/
theorem getD_set_self {α : Type} (l : List α) (i : ℕ) (a d : α) (h : i < l.length) :
    (l.set i a).getD i d = a := by
  rw [List.getD_eq_getElem?_getD, List.getElem?_set_self (by simpa using h)]
  rfl

theorem getD_set_ne {α : Type} (l : List α) {i j : ℕ} (a d : α) (h : i ≠ j) :
    (l.set i a).getD j d = l.getD j d := by
  rw [List.getD_eq_getElem?_getD, List.getElem?_set_ne h, ← List.getD_eq_getElem?_getD]

/-- In-place update of one element; Rust's `vec[i] = x` / `get_mut`. -/
def modifyAt {α : Type} (l : List α) (i : ℕ) (f : α → α) : List α :=
  match l.get? i with
  | some x => l.set i (f x)
  | none => l

/-- Edges of the audio graph are tagged `Normal` or `Feedback` and carry
the target node index. -/
inductive Edge where
  | normal (i : ℕ)
  | feedback (i : ℕ)
deriving DecidableEq, Repr

namespace Edge

/-- The target index, independently of the tag (the
`(Edge::Normal(i) | Edge::Feedback(i))` pattern in the source). -/
def target : Edge → ℕ
  | .normal i => i
  | .feedback i => i

/-- `Edge::index_if_normal`. -/
def index_if_normal : Edge → Option ℕ
  | .normal i => some i
  | .feedback _ => none

/-- `Edge::set_as_feedback` (the source panics on an already-feedback
edge; every call site is on a just-pushed `Normal` edge). -/
def set_as_feedback : Edge → Edge
  | .normal i => .feedback i
  | .feedback i => .feedback i

end Edge

/-- `contains(edges, index)`: is there any edge (of either kind) with
this target? -/
def containsEdge (edges : List Edge) (index : ℕ) : Bool :=
  edges.any (fun e => e.target == index)

/-- A node of the audio graph: payload `data`, identifier `id`, and the
outgoing adjacency list. -/
structure AGNode (I D : Type) where
  id : I
  data : D
  edges : List Edge
deriving DecidableEq

/-- `AudioGraph`: the ordered node list. -/
structure AudioGraph (I D : Type) where
  ordered_nodes : List (AGNode I D)
deriving DecidableEq

namespace AudioGraph

variable {I D : Type}

/-- Number of nodes. -/
def len (g : AudioGraph I D) : ℕ := g.ordered_nodes.length

/-- The edge list of node `u` (total; out-of-range reads give `[]`). -/
def edgesAt (g : AudioGraph I D) (u : ℕ) : List Edge :=
  ((g.ordered_nodes.get? u).map AGNode.edges).getD []

/-- Append one edge to node `u`'s adjacency list. -/
def pushEdgeAt (g : AudioGraph I D) (u : ℕ) (e : Edge) : AudioGraph I D :=
  ⟨modifyAt g.ordered_nodes u (fun nd => { nd with edges := nd.edges ++ [e] })⟩

/-- `try_connect_indexes`: push a `Normal` edge unless a duplicate
target exists; report whether the push happened. -/
def try_connect_indexes (g : AudioGraph I D) (from_ to_ : ℕ) :
    AudioGraph I D × Bool :=
  if containsEdge (g.edgesAt from_) to_ then (g, false)
  else (g.pushEdgeAt from_ (.normal to_), true)

/-- Retarget every edge of every node (the `edges_mut` iterator). -/
def retargetEdges (g : AudioGraph I D) (f : ℕ → ℕ) : AudioGraph I D :=
  ⟨g.ordered_nodes.map fun nd =>
    { nd with edges := nd.edges.map fun e =>
        match e with
        | .normal i => .normal (f i)
        | .feedback i => .feedback (f i) }⟩

/-- `top_level_insert`: bump every edge target, then insert the new node
at index `0`. -/
def top_level_insert (g : AudioGraph I D) (id : I) (data : D) : AudioGraph I D :=
  ⟨⟨id, data, []⟩ :: (g.retargetEdges (· + 1)).ordered_nodes⟩

/-- The `Normal`-edge adjacency structure handed to the topological
sort by `connect`. -/
def normalAdj (g : AudioGraph I D) : List (List ℕ) :=
  g.ordered_nodes.map fun nd => nd.edges.filterMap Edge.index_if_normal

/-- Demote the *last* edge of node `u` to `Feedback`
(`edges.last_mut().unwrap().set_as_feedback()`). -/
def demoteLastEdge (g : AudioGraph I D) (u : ℕ) : AudioGraph I D :=
  ⟨modifyAt g.ordered_nodes u (fun nd =>
    { nd with edges :=
        match nd.edges.getLast? with
        | some e => nd.edges.dropLast ++ [e.set_as_feedback]
        | none => nd.edges })⟩

end AudioGraph

/-! ### Kahn's algorithm (`topological_sort` in src/dsp/graph.rs) -/

/-- Reverse adjacency: `incoming[edge].push(node)` over all nodes in
index order. -/
def pushIncoming (acc : List (List ℕ)) (v u : ℕ) : List (List ℕ) :=
  acc.set v ((acc.getD v []) ++ [u])

def buildIncomingGo (u : ℕ) (rest : List (List ℕ)) (acc : List (List ℕ)) :
    List (List ℕ) :=
  match rest with
  | [] => acc
  | outs :: rest => buildIncomingGo (u + 1) rest (outs.foldl (fun a v => pushIncoming a v u) acc)

/-- The `incoming_edges` table of `topological_sort`. -/
def buildIncoming (nodes : List (List ℕ)) : List (List ℕ) :=
  buildIncomingGo 0 nodes (List.replicate nodes.length [])

/-- The inner `while let Some(next) = nodes[i].pop()` loop: process the
outgoing edges of the popped node `i` (in `pop` order, i.e. the
reversed adjacency list), erasing `i` from each target's incoming list
(`find_remove`; the `unwrap` panic corresponds to `i` being absent,
which is proved not to happen on the inputs used) and pushing every
target whose incoming list becomes empty onto the worklist. -/
def drain (i : ℕ) (outsRev : List ℕ) (incoming : List (List ℕ)) (indep : List ℕ) :
    List (List ℕ) × List ℕ :=
  match outsRev with
  | [] => (incoming, indep)
  | next :: rest =>
      let e := (incoming.getD next []).erase i
      drain i rest (incoming.set next e) (if e.isEmpty then next :: indep else indep)

/-- Total length of the remaining outgoing-edge lists. -/
def sumLen (l : List (List ℕ)) : ℕ := (l.map List.length).sum

theorem drain_indep_length_le (i : ℕ) (outsRev : List ℕ) (incoming : List (List ℕ))
    (indep : List ℕ) :
    (drain i outsRev incoming indep).2.length ≤ indep.length + outsRev.length := by
  induction outsRev generalizing incoming indep with
  | nil => simp [drain]
  | cons next rest ih =>
      rw [drain]
      refine le_trans (ih _ _) ?_
      by_cases h : ((incoming.getD next []).erase i).isEmpty = true
      · rw [if_pos h]; simp only [List.length_cons]; omega
      · rw [if_neg h]; simp only [List.length_cons]; omega

theorem sumLen_set_nil (l : List (List ℕ)) (i : ℕ) :
    sumLen (l.set i []) + (l.getD i []).length = sumLen l := by
  induction l generalizing i with
  | nil => simp [sumLen]
  | cons x xs ih =>
      cases i with
      | zero => simp [sumLen]; omega
      | succ i =>
          simp only [List.set_cons_succ, sumLen, List.map_cons, List.sum_cons,
            List.getD_cons_succ]
          have := ih i
          simp only [sumLen] at this
          omega

/-- The outer `while let Some(i) = independent_nodes.pop()` loop.  The
explicit `fuel` makes the recursion structural (so that the function
evaluates by reduction); the caller passes fuel that provably exceeds
the loop's step count, so the out-of-fuel arm is unreachable. -/
def kahnLoop (fuel : ℕ) (nodes incoming : List (List ℕ)) (indep order : List ℕ) :
    List (List ℕ) × List ℕ :=
  match fuel, indep with
  | _, [] => (incoming, order)
  | 0, _ :: _ => (incoming, order)
  | fuel + 1, i :: rest =>
      let p := drain i (nodes.getD i []).reverse incoming rest
      kahnLoop fuel (nodes.set i []) p.1 p.2 (order ++ [i])

/-- `topological_sort` (Kahn's algorithm), as in src/dsp/graph.rs:
build the reverse adjacency, seed the worklist with the zero-in-degree
nodes (seeded in index order, so the largest index is on top of the
stack), run the loop, and succeed iff every incoming list was fully
drained. -/
def topological_sort (nodes : List (List ℕ)) : Option (List ℕ) :=
  let incoming := buildIncoming nodes
  let indep0 := ((List.range nodes.length).filter
    (fun i => (incoming.getD i []).isEmpty)).reverse
  let r := kahnLoop (sumLen nodes + nodes.length) nodes incoming indep0 []
  if r.1.all List.isEmpty then some r.2 else none

/-! ### In-place permutation (`permute` in src/dsp/processor.rs) -/

/-- `slice.swap(a, b)` (total model; both call sites are in bounds). -/
def listSwap {α : Type} (l : List α) (a b : ℕ) : List α :=
  match l.get? a, l.get? b with
  | some x, some y => (l.set a y).set b x
  | _, _ => l

/-- The inner `while i != indices[current]` cycle-following loop of
`permute`, with explicit fuel (the fuel is chosen large enough that
exhaustion is unreachable for permutation inputs, which is proved). -/
def cycleWalk {α : Type} (fuel : ℕ) (s : List α) (idx : List ℕ) (i current : ℕ) :
    List α × List ℕ :=
  match fuel with
  | 0 => (s, idx)
  | fuel + 1 =>
      if idx.getD current 0 = i then (s, idx.set current current)
      else
        let next := idx.getD current 0
        cycleWalk fuel (listSwap s current next) (idx.set current current) i next

/-- `permute(slice, indices)`: for each `i` in `0..len`, follow and
settle the cycle through `i`, clobbering `indices` as it goes. -/
def permute {α : Type} (slice : List α) (indices : List ℕ) : List α :=
  ((List.range indices.length).foldl
    (fun p i => cycleWalk (indices.length + 1) p.1 p.2 i i) (slice, indices)).1

namespace AudioGraph

variable {I D : Type}

/-- `reorder`: rewrite every edge target to its position in the new
ordering (`indices.iter().position(...)`; the `unwrap` panic corresponds
to a target absent from `indices`, proved not to happen), then permute
the node storage. -/
def reorder (g : AudioGraph I D) (indices : List ℕ) : AudioGraph I D :=
  let g1 := g.retargetEdges (fun i => indices.indexOf i)
  ⟨permute g1.ordered_nodes indices⟩

/-- `connect` (with the `find_node` id-to-index resolution already
performed): reject duplicates, otherwise push the `Normal` edge, sort,
and either reorder (returning the permutation) or demote the just-added
edge to `Feedback`. -/
def connect (g : AudioGraph I D) (from_ to_ : ℕ) :
    AudioGraph I D × Option ((ℕ × ℕ) × Option (List ℕ)) :=
  if (g.try_connect_indexes from_ to_).2 then
    match topological_sort (g.try_connect_indexes from_ to_).1.normalAdj with
    | some indices =>
        ((g.try_connect_indexes from_ to_).1.reorder indices,
          some ((from_, to_), some indices))
    | none =>
        ((g.try_connect_indexes from_ to_).1.demoteLastEdge from_,
          some ((from_, to_), none))
  else (g, none)

end AudioGraph

/-- Graphs reachable through the public API from the empty graph:
`top_level_insert` and `connect` on valid node indices (`connect` is
always invoked on indices returned by `find_node`, which are in
bounds). -/
inductive Reachable {I D : Type} : AudioGraph I D → Prop where
  | empty : Reachable ⟨[]⟩
  | insert (g : AudioGraph I D) (id : I) (data : D) :
      Reachable g → Reachable (g.top_level_insert id data)
  | connect_step (g : AudioGraph I D) (u v : ℕ) :
      Reachable g → u < g.len → v < g.len → Reachable (g.connect u v).1

/-- One step along a `Normal` edge of an adjacency structure. -/
def adjRel (adj : List (List ℕ)) (u v : ℕ) : Prop := v ∈ adj.getD u []

/-- Acyclicity of an adjacency structure. -/
def Acyclic (adj : List (List ℕ)) : Prop :=
  ∀ x, ¬ Relation.TransGen (adjRel adj) x x

/-- Adjacency well-formedness: duplicate-free lists with in-range
targets. -/
def AdjWF (adj : List (List ℕ)) : Prop :=
  ∀ l ∈ adj, l.Nodup ∧ ∀ v ∈ l, v < adj.length

/-- Graph well-formedness: each node's edge targets are duplicate-free
(enforced by `try_connect_indexes`) and in range. -/
def GraphWF {I D : Type} (g : AudioGraph I D) : Prop :=
  ∀ nd ∈ g.ordered_nodes,
    (nd.edges.map Edge.target).Nodup ∧ ∀ e ∈ nd.edges, e.target < g.len

/-- Every `Normal` edge goes from a strictly smaller to a strictly
larger node index (the invariant restored by each reorder). -/
def ForwardNormal {I D : Type} (g : AudioGraph I D) : Prop :=
  ∀ u v, v ∈ (g.normalAdj).getD u [] → u < v

/-! ### Characterisation of `buildIncoming` -/

theorem pushIncoming_length (acc : List (List ℕ)) (v u : ℕ) :
    (pushIncoming acc v u).length = acc.length := by
  simp [pushIncoming]

theorem innerFold_length (outs : List ℕ) (acc : List (List ℕ)) (u : ℕ) :
    (outs.foldl (fun a v => pushIncoming a v u) acc).length = acc.length := by
  induction outs generalizing acc with
  | nil => rfl
  | cons v vs ih => rw [List.foldl_cons, ih, pushIncoming_length]

theorem innerFold_getD (outs : List ℕ) (acc : List (List ℕ)) (u : ℕ)
    (hnd : outs.Nodup) (hlt : ∀ v ∈ outs, v < acc.length) (w : ℕ) :
    (outs.foldl (fun a v => pushIncoming a v u) acc).getD w [] =
      acc.getD w [] ++ (if w ∈ outs then [u] else []) := by
  induction outs generalizing acc with
  | nil => simp
  | cons v vs ih =>
      rw [List.foldl_cons]
      have hv : v < acc.length := hlt v (List.mem_cons_self v vs)
      have hnd' : vs.Nodup := hnd.of_cons
      have hlt' : ∀ x ∈ vs, x < (pushIncoming acc v u).length := by
        rw [pushIncoming_length]; exact fun x hx => hlt x (List.mem_cons_of_mem v hx)
      rw [ih (pushIncoming acc v u) hnd' hlt']
      by_cases hw : w = v
      · subst hw
        have hwvs : w ∉ vs := (List.nodup_cons.mp hnd).1
        rw [if_neg hwvs, if_pos (List.mem_cons_self w vs), List.append_nil, pushIncoming]
        exact getD_set_self _ _ _ _ hv
      · have heq : (pushIncoming acc v u).getD w [] = acc.getD w [] :=
          getD_set_ne _ _ _ (fun h => hw (h.symm))
        by_cases hwvs : w ∈ vs
        · rw [heq, if_pos hwvs, if_pos (List.mem_cons_of_mem _ hwvs)]
        · rw [heq, if_neg hwvs, if_neg (by simp [List.mem_cons, hw, hwvs])]

theorem buildIncomingGo_length (rest : List (List ℕ)) (u : ℕ) (acc : List (List ℕ)) :
    (buildIncomingGo u rest acc).length = acc.length := by
  induction rest generalizing u acc with
  | nil => rfl
  | cons outs rest ih => rw [buildIncomingGo, ih, innerFold_length]

theorem buildIncomingGo_getD (rest : List (List ℕ)) (u : ℕ) (acc : List (List ℕ))
    (hnd : ∀ l ∈ rest, l.Nodup) (hlt : ∀ l ∈ rest, ∀ v ∈ l, v < acc.length) (w : ℕ) :
    (buildIncomingGo u rest acc).getD w [] =
      acc.getD w [] ++
        (List.range' u rest.length).filter
          (fun j => decide (w ∈ rest.getD (j - u) [])) := by
  induction rest generalizing u acc with
  | nil => simp [buildIncomingGo]
  | cons outs rest ih =>
      rw [buildIncomingGo]
      have hnd0 : outs.Nodup := hnd outs (List.mem_cons_self _ _)
      have hlt0 : ∀ v ∈ outs, v < acc.length :=
        fun v hv => hlt outs (List.mem_cons_self _ _) v hv
      have hlen : (outs.foldl (fun a v => pushIncoming a v u) acc).length = acc.length :=
        innerFold_length _ _ _
      rw [ih (u + 1) _ (fun l hl => hnd l (List.mem_cons_of_mem _ hl))
        (fun l hl v hv => by rw [hlen]; exact hlt l (List.mem_cons_of_mem _ hl) v hv),
        innerFold_getD outs acc u hnd0 hlt0 w]
      rw [List.length_cons, List.range'_succ, List.filter_cons]
      have hfc : ((List.range' (u + 1) rest.length).filter
            (fun j => decide (w ∈ rest.getD (j - (u + 1)) []))) =
          ((List.range' (u + 1) rest.length).filter
            (fun j => decide (w ∈ (outs :: rest).getD (j - u) []))) := by
        refine List.filter_congr fun j hj => ?_
        have hj1 : u + 1 ≤ j := (List.mem_range'_1.mp hj).1
        have : j - u = (j - (u + 1)) + 1 := by omega
        rw [this, List.getD_cons_succ]
      rw [← hfc]
      by_cases hw : w ∈ outs
      · simp [Nat.sub_self, hw]
      · simp [Nat.sub_self, hw]

/-- `buildIncoming adj` at index `v` lists, in increasing order, the
sources `u` with an edge `u → v`. -/
theorem buildIncoming_getD (adj : List (List ℕ)) (hWF : AdjWF adj) (w : ℕ) :
    (buildIncoming adj).getD w [] =
      (List.range adj.length).filter (fun u => decide (w ∈ adj.getD u [])) := by
  rw [buildIncoming,
    buildIncomingGo_getD adj 0 _ (fun l hl => (hWF l hl).1)
      (fun l hl v hv => by rw [List.length_replicate]; exact (hWF l hl).2 v hv) w]
  have h1 : (List.replicate adj.length ([] : List ℕ)).getD w [] = [] := by
    by_cases hw : w < adj.length
    · rw [List.getD_eq_getElem _ _ (by simpa using hw)]; simp
    · rw [List.getD_eq_default]; simpa using hw
  rw [h1, List.nil_append, ← List.range_eq_range']
  refine List.filter_congr fun j hj => ?_
  rw [Nat.sub_zero]

theorem buildIncoming_length (adj : List (List ℕ)) :
    (buildIncoming adj).length = adj.length := by
  rw [buildIncoming, buildIncomingGo_length, List.length_replicate]

/-! ### The loop invariant of Kahn's algorithm -/

/-- Erasing from a filtered duplicate-free list refines the filter. -/
theorem filter_erase_of_nodup {l : List ℕ} (hl : l.Nodup) (p : ℕ → Bool) (a : ℕ) :
    (l.filter p).erase a = l.filter (fun x => p x && !(x == a)) := by
  induction l with
  | nil => rfl
  | cons x xs ih =>
      have hx : x ∉ xs := (List.nodup_cons.mp hl).1
      have ih' := ih (List.nodup_cons.mp hl).2
      rw [List.filter_cons, List.filter_cons]
      by_cases hxa : x = a
      · subst hxa
        have h2 : xs.filter (fun y => p y && !(y == x)) = xs.filter p := by
          refine List.filter_congr fun y hy => ?_
          have hne : (y == x) = false :=
            beq_eq_false_iff_ne.mpr (fun h => hx (h ▸ hy))
          rw [hne, Bool.not_false, Bool.and_true]
        by_cases hpx : p x = true
        · rw [if_pos hpx, if_neg (by rw [hpx, beq_self_eq_true]; simp),
            List.erase_cons_head, h2]
        · have hpx' : p x = false := by simpa using hpx
          rw [if_neg (by rw [hpx']; exact Bool.false_ne_true),
            if_neg (by rw [hpx']; simp)]
          exact ih'
      · have hba : (x == a) = false := beq_eq_false_iff_ne.mpr hxa
        by_cases hpx : p x = true
        · rw [if_pos hpx, if_pos (by rw [hpx, hba]; simp),
            List.erase_cons_tail, ih']
          rw [hba]
          exact Bool.false_ne_true
        · have hpx' : p x = false := by simpa using hpx
          rw [if_neg (by rw [hpx']; exact Bool.false_ne_true),
            if_neg (by rw [hpx']; simp)]
          exact ih'

/-- The incoming list of `v` relative to an emitted-order `order`:
the sources not yet emitted that still have an edge into `v`. -/
def rangeFilter (adj : List (List ℕ)) (order : List ℕ) (v : ℕ) : List ℕ :=
  (List.range adj.length).filter
    (fun u => decide (u ∉ order) && decide (v ∈ adj.getD u []))

theorem rangeFilter_erase (adj : List (List ℕ)) (order : List ℕ) (i v : ℕ) :
    (rangeFilter adj order v).erase i = rangeFilter adj (order ++ [i]) v := by
  rw [rangeFilter, filter_erase_of_nodup (List.nodup_range _), rangeFilter]
  refine List.filter_congr fun u _ => ?_
  have h1 : decide (u ∉ order ++ [i]) = (decide (u ∉ order) && !(u == i)) := by
    by_cases ho : u ∈ order <;> by_cases he : u = i <;>
      simp [ho, he, List.mem_append]
  rw [h1, Bool.and_assoc, Bool.and_assoc,
    Bool.and_comm (decide (v ∈ adj.getD u [])) (!(u == i))]

theorem rangeFilter_append_of_not_mem (adj : List (List ℕ)) (order : List ℕ)
    (i v : ℕ) (h : v ∉ adj.getD i []) :
    rangeFilter adj order v = rangeFilter adj (order ++ [i]) v := by
  refine List.filter_congr fun u _ => ?_
  by_cases h2 : u = i
  · subst h2
    have h3 : decide (v ∈ adj.getD u []) = false := by simpa using h
    rw [h3, Bool.and_false, Bool.and_false]
  · have h4 : decide (u ∉ order ++ [i]) = decide (u ∉ order) :=
      decide_eq_decide.mpr (by simp [List.mem_append, h2])
    rw [h4]

/-- The state invariant of the `kahnLoop` worklist loop, relative to the
original adjacency `adj`. -/
structure KahnInv (adj : List (List ℕ)) (nodes incoming : List (List ℕ))
    (indep order : List ℕ) : Prop where
  nodes_len : nodes.length = adj.length
  inc_len : incoming.length = adj.length
  nodes_spec : ∀ u, nodes.getD u [] = if u ∈ order then [] else adj.getD u []
  inc_spec : ∀ v, incoming.getD v [] = rangeFilter adj order v
  indep_lt : ∀ x ∈ indep, x < adj.length
  indep_inc : ∀ x ∈ indep, incoming.getD x [] = []
  indep_ord : ∀ x ∈ indep, x ∉ order
  indep_nodup : indep.Nodup
  order_nodup : order.Nodup
  order_lt : ∀ x ∈ order, x < adj.length
  cover : ∀ v, v < adj.length → incoming.getD v [] = [] → v ∈ order ∨ v ∈ indep
  topo : ∀ u v, v ∈ adj.getD u [] → v ∈ order →
    u ∈ order ∧ order.indexOf u < order.indexOf v

/-- What one full inner drain establishes.  `todo` is the not yet
processed suffix of the popped node's reversed adjacency list. -/
theorem drain_spec (adj : List (List ℕ)) (i : ℕ) (order : List ℕ)
    (hi_ord : i ∉ order)
    (todo : List ℕ) (inc : List (List ℕ)) (ind : List ℕ)
    (htodo_nd : todo.Nodup)
    (htodo : ∀ v ∈ todo, v ∈ adj.getD i [] ∧ v ∉ order ∧ v ≠ i ∧ v < adj.length)
    (hlen : inc.length = adj.length)
    (hinc : ∀ v, inc.getD v [] = if v ∈ todo then rangeFilter adj order v
      else rangeFilter adj (order ++ [i]) v)
    (hind : ∀ x ∈ ind, x < adj.length ∧ inc.getD x [] = [] ∧ x ∉ order ++ [i])
    (hind_nd : ind.Nodup)
    (hcov : ∀ v, v < adj.length → v ∉ todo → inc.getD v [] = [] →
      v ∈ order ++ [i] ∨ v ∈ ind) :
    (drain i todo inc ind).1.length = adj.length ∧
      (∀ v, (drain i todo inc ind).1.getD v [] = rangeFilter adj (order ++ [i]) v) ∧
      (∀ x ∈ (drain i todo inc ind).2, x < adj.length ∧
        (drain i todo inc ind).1.getD x [] = [] ∧ x ∉ order ++ [i]) ∧
      (drain i todo inc ind).2.Nodup ∧
      (∀ v, v < adj.length → (drain i todo inc ind).1.getD v [] = [] →
        v ∈ order ++ [i] ∨ v ∈ (drain i todo inc ind).2) := by
  induction todo generalizing inc ind with
  | nil =>
      rw [drain]
      refine ⟨hlen, fun v => by simpa using hinc v, hind, hind_nd, fun v hv => ?_⟩
      exact hcov v hv (by simp)
  | cons next restT ih =>
      obtain ⟨hnext_adj, hnext_ord, hnext_ne, hnext_lt⟩ :=
        htodo next (List.mem_cons_self _ _)
      have hnext_todo : next ∉ restT := (List.nodup_cons.mp htodo_nd).1
      have hinc_next : inc.getD next [] = rangeFilter adj order next := by
        rw [hinc next, if_pos (List.mem_cons_self _ _)]
      have hi_lt : i < adj.length := by
        by_contra hni
        push_neg at hni
        rw [List.getD_eq_default _ _ hni] at hnext_adj
        exact absurd hnext_adj (List.not_mem_nil next)
      have hi_mem : i ∈ rangeFilter adj order next := by
        rw [rangeFilter, List.mem_filter]
        refine ⟨List.mem_range.mpr hi_lt, ?_⟩
        simp only [Bool.and_eq_true, decide_eq_true_eq]
        exact ⟨hi_ord, hnext_adj⟩
      have he : (inc.getD next []).erase i = rangeFilter adj (order ++ [i]) next := by
        rw [hinc_next, rangeFilter_erase]
      rw [drain]
      set e := (inc.getD next []).erase i with hedef
      set inc2 := inc.set next e with hinc2def
      set ind2 := if e.isEmpty then next :: ind else ind with hind2def
      have hlen2 : inc2.length = adj.length := by
        rw [hinc2def, List.length_set]; exact hlen
      have hgetD_next : inc2.getD next [] = e :=
        getD_set_self _ _ _ _ (by rw [hlen]; exact hnext_lt)
      have hgetD_ne : ∀ v, v ≠ next → inc2.getD v [] = inc.getD v [] :=
        fun v hv => getD_set_ne _ _ _ (fun h => hv h.symm)
      have hnext_no : next ∉ order ++ [i] := by
        simp only [List.mem_append, List.mem_singleton]
        rintro (h | h)
        · exact hnext_ord h
        · exact hnext_ne h
      refine ih inc2 ind2 (List.nodup_cons.mp htodo_nd).2
        (fun v hv => htodo v (List.mem_cons_of_mem _ hv)) hlen2 ?_ ?_ ?_ ?_
      · intro v
        by_cases hv : v = next
        · subst hv
          rw [hgetD_next, if_neg hnext_todo, hedef]
          exact he
        · rw [hgetD_ne v hv, hinc v]
          by_cases hvr : v ∈ restT
          · rw [if_pos hvr, if_pos (List.mem_cons_of_mem _ hvr)]
          · rw [if_neg hvr, if_neg (by
              simp only [List.mem_cons]
              rintro (h | h)
              · exact hv h
              · exact hvr h)]
      · intro x hx
        rw [hind2def] at hx
        have hxne_of_mem : x ∈ ind → x ≠ next := by
          intro hmem hcon
          subst hcon
          obtain ⟨_, h2, _⟩ := hind x hmem
          rw [hinc_next] at h2
          rw [h2] at hi_mem
          exact absurd hi_mem (List.not_mem_nil i)
        by_cases hemp : e.isEmpty
        · rw [if_pos hemp] at hx
          rcases List.mem_cons.mp hx with h | h
          · subst h
            exact ⟨hnext_lt, by rw [hgetD_next]; exact List.isEmpty_iff.mp hemp, hnext_no⟩
          · obtain ⟨h1, h2, h3⟩ := hind x h
            exact ⟨h1, by rw [hgetD_ne x (hxne_of_mem h)]; exact h2, h3⟩
        · rw [if_neg hemp] at hx
          obtain ⟨h1, h2, h3⟩ := hind x hx
          exact ⟨h1, by rw [hgetD_ne x (hxne_of_mem hx)]; exact h2, h3⟩
      · rw [hind2def]
        by_cases hemp : e.isEmpty
        · rw [if_pos hemp]
          refine List.nodup_cons.mpr ⟨?_, hind_nd⟩
          intro hcon
          obtain ⟨_, h2, _⟩ := hind next hcon
          rw [hinc_next] at h2
          rw [h2] at hi_mem
          exact absurd hi_mem (List.not_mem_nil i)
        · rw [if_neg hemp]; exact hind_nd
      · intro v hv hvr hvz
        by_cases hveq : v = next
        · subst hveq
          rw [hgetD_next] at hvz
          have hemp : e.isEmpty := by rw [hvz]; rfl
          rw [hind2def, if_pos hemp]
          exact Or.inr (List.mem_cons_self _ _)
        · rw [hgetD_ne v hveq] at hvz
          have hvnotodo : v ∉ next :: restT := by
            simp only [List.mem_cons]
            rintro (h | h)
            · exact hveq h
            · exact hvr h
          rcases hcov v hv hvnotodo hvz with h | h
          · exact Or.inl h
          · rw [hind2def]
            by_cases hemp : e.isEmpty
            · rw [if_pos hemp]; exact Or.inr (List.mem_cons_of_mem _ h)
            · rw [if_neg hemp]; exact Or.inr h

/-- The worklist loop preserves `KahnInv` and, given sufficient fuel,
terminates with an empty worklist. -/
theorem kahnLoop_inv (adj : List (List ℕ)) (hWF : AdjWF adj) :
    ∀ (fuel : ℕ) (nodes incoming : List (List ℕ)) (indep order : List ℕ),
      sumLen nodes + indep.length ≤ fuel →
      KahnInv adj nodes incoming indep order →
      ∃ nodes2, KahnInv adj nodes2 (kahnLoop fuel nodes incoming indep order).1 []
        (kahnLoop fuel nodes incoming indep order).2 := by
  intro fuel
  induction fuel with
  | zero =>
      intro nodes incoming indep order hm hInv
      have hind : indep = [] := by
        cases indep with
        | nil => rfl
        | cons a l => simp [List.length_cons] at hm
      subst hind
      rw [kahnLoop]
      exact ⟨nodes, hInv⟩
  | succ fuel ih =>
      intro nodes incoming indep order hm hInv
      cases indep with
      | nil =>
          rw [kahnLoop]
          exact ⟨nodes, hInv⟩
      | cons i rest =>
          have hi_lt : i < adj.length := hInv.indep_lt i (List.mem_cons_self _ _)
          have hi_ord : i ∉ order := hInv.indep_ord i (List.mem_cons_self _ _)
          have hi_inc : incoming.getD i [] = [] :=
            hInv.indep_inc i (List.mem_cons_self _ _)
          have hi_filter : rangeFilter adj order i = [] := by
            rw [← hInv.inc_spec i]; exact hi_inc
          have hnodes_i : nodes.getD i [] = adj.getD i [] := by
            rw [hInv.nodes_spec i, if_neg hi_ord]
          have houts_nd : (adj.getD i []).Nodup := by
            have : adj.getD i [] ∈ adj := by
              rw [List.getD_eq_getElem _ _ (by exact hi_lt)]
              exact List.getElem_mem _
            exact (hWF _ this).1
          have houts_lt : ∀ v ∈ adj.getD i [], v < adj.length := by
            have : adj.getD i [] ∈ adj := by
              rw [List.getD_eq_getElem _ _ (by exact hi_lt)]
              exact List.getElem_mem _
            exact (hWF _ this).2
          have hnot_in_filter : ∀ u, u < adj.length → u ∉ order →
              i ∉ adj.getD u [] := by
            intro u hu huo hmem
            have : u ∈ rangeFilter adj order i := by
              rw [rangeFilter, List.mem_filter]
              refine ⟨List.mem_range.mpr hu, ?_⟩
              simp only [Bool.and_eq_true, decide_eq_true_eq]
              exact ⟨huo, hmem⟩
            rw [hi_filter] at this
            exact absurd this (List.not_mem_nil u)
          have hii : i ∉ adj.getD i [] := hnot_in_filter i hi_lt hi_ord
          have houts_ord : ∀ v ∈ adj.getD i [], v ∉ order := by
            intro v hv hvo
            exact absurd (hInv.topo i v hv hvo).1 hi_ord
          have htodo : ∀ v ∈ (adj.getD i []).reverse,
              v ∈ adj.getD i [] ∧ v ∉ order ∧ v ≠ i ∧ v < adj.length := by
            intro v hv
            rw [List.mem_reverse] at hv
            exact ⟨hv, houts_ord v hv, fun h => hii (h ▸ hv), houts_lt v hv⟩
          have hinc_drain : ∀ v, incoming.getD v [] =
              if v ∈ (adj.getD i []).reverse then rangeFilter adj order v
              else rangeFilter adj (order ++ [i]) v := by
            intro v
            by_cases hv : v ∈ (adj.getD i []).reverse
            · rw [if_pos hv, hInv.inc_spec v]
            · rw [if_neg hv, hInv.inc_spec v]
              exact rangeFilter_append_of_not_mem adj order i v
                (by rw [← List.mem_reverse]; exact hv)
          have hind_drain : ∀ x ∈ rest, x < adj.length ∧
              incoming.getD x [] = [] ∧ x ∉ order ++ [i] := by
            intro x hx
            have hxi : x ≠ i := by
              intro h
              exact (List.nodup_cons.mp hInv.indep_nodup).1 (h ▸ hx)
            refine ⟨hInv.indep_lt x (List.mem_cons_of_mem _ hx),
              hInv.indep_inc x (List.mem_cons_of_mem _ hx), ?_⟩
            simp only [List.mem_append, List.mem_singleton]
            rintro (h | h)
            · exact hInv.indep_ord x (List.mem_cons_of_mem _ hx) h
            · exact hxi h
          have hcov_drain : ∀ v, v < adj.length → v ∉ (adj.getD i []).reverse →
              incoming.getD v [] = [] → v ∈ order ++ [i] ∨ v ∈ rest := by
            intro v hv _ hvz
            rcases hInv.cover v hv hvz with h | h
            · exact Or.inl (List.mem_append_left _ h)
            · rcases List.mem_cons.mp h with h | h
              · exact Or.inl (List.mem_append_right _ (by simp [h]))
              · exact Or.inr h
          obtain ⟨d1, d2, d3, d4, d5⟩ := drain_spec adj i order hi_ord
            (adj.getD i []).reverse incoming rest
            (List.nodup_reverse.mpr houts_nd) htodo hInv.inc_len hinc_drain
            hind_drain (List.nodup_cons.mp hInv.indep_nodup).2 hcov_drain
          have horder_nodup : (order ++ [i]).Nodup := by
            rw [List.nodup_append]
            exact ⟨hInv.order_nodup, List.nodup_singleton i,
              by simpa [List.disjoint_singleton] using hi_ord⟩
          have hInv2 : KahnInv adj (nodes.set i [])
              (drain i (adj.getD i []).reverse incoming rest).1
              (drain i (adj.getD i []).reverse incoming rest).2
              (order ++ [i]) := by
            refine ⟨by rw [List.length_set]; exact hInv.nodes_len, d1, ?_, d2,
              fun x hx => (d3 x hx).1, fun x hx => (d3 x hx).2.1,
              fun x hx => (d3 x hx).2.2, d4, horder_nodup, ?_, d5, ?_⟩
            · intro u
              by_cases hu : u = i
              · subst hu
                rw [getD_set_self _ _ _ _ (by rw [hInv.nodes_len]; exact hi_lt),
                  if_pos (List.mem_append_right _ (by simp))]
              · rw [getD_set_ne _ _ _ (fun h => hu h.symm), hInv.nodes_spec u]
                by_cases ho : u ∈ order
                · rw [if_pos ho, if_pos (List.mem_append_left _ ho)]
                · rw [if_neg ho, if_neg (by
                    simp only [List.mem_append, List.mem_singleton]
                    rintro (h | h)
                    · exact ho h
                    · exact hu h)]
            · intro x hx
              rcases List.mem_append.mp hx with h | h
              · exact hInv.order_lt x h
              · rw [List.mem_singleton] at h
                exact h ▸ hi_lt
            · intro u v hv hvord
              rcases List.mem_append.mp hvord with hvo | hvo
              · obtain ⟨h1, h2⟩ := hInv.topo u v hv hvo
                refine ⟨List.mem_append_left _ h1, ?_⟩
                rw [List.indexOf_append_of_mem h1, List.indexOf_append_of_mem hvo]
                exact h2
              · rw [List.mem_singleton] at hvo
                subst hvo
                have hu_lt : u < adj.length := by
                  by_contra hnu
                  push_neg at hnu
                  rw [List.getD_eq_default _ _ hnu] at hv
                  exact absurd hv (List.not_mem_nil v)
                have hu_ord : u ∈ order := by
                  by_contra huo
                  exact hnot_in_filter u hu_lt huo hv
                refine ⟨List.mem_append_left _ hu_ord, ?_⟩
                rw [List.indexOf_append_of_mem hu_ord,
                  List.indexOf_append_of_not_mem hi_ord]
                simp only [List.indexOf_cons_self, Nat.add_zero]
                exact List.indexOf_lt_length.mpr hu_ord
          have hmeasure : sumLen (nodes.set i []) +
              (drain i (adj.getD i []).reverse incoming rest).2.length ≤ fuel := by
            have h1 := drain_indep_length_le i (adj.getD i []).reverse incoming rest
            have h2 := sumLen_set_nil nodes i
            rw [List.length_reverse] at h1
            rw [hnodes_i] at h2
            simp only [List.length_cons] at hm
            omega
          have := ih (nodes.set i [])
            (drain i (adj.getD i []).reverse incoming rest).1
            (drain i (adj.getD i []).reverse incoming rest).2
            (order ++ [i]) hmeasure hInv2
          rw [kahnLoop, hnodes_i]
          exact this

/-- The invariant holds at the entry of the loop. -/
theorem kahn_init (adj : List (List ℕ)) (hWF : AdjWF adj) :
    KahnInv adj adj (buildIncoming adj)
      (((List.range adj.length).filter
        (fun i => ((buildIncoming adj).getD i []).isEmpty)).reverse) [] := by
  refine ⟨rfl, buildIncoming_length adj, by simp, ?_, ?_, ?_, by simp, ?_,
    List.nodup_nil, by simp, ?_, by simp⟩
  · intro v
    rw [buildIncoming_getD adj hWF v, rangeFilter]
    refine List.filter_congr fun u _ => ?_
    simp
  · intro x hx
    rw [List.mem_reverse, List.mem_filter] at hx
    exact List.mem_range.mp hx.1
  · intro x hx
    rw [List.mem_reverse, List.mem_filter] at hx
    exact List.isEmpty_iff.mp (by simpa using hx.2)
  · exact List.nodup_reverse.mpr (List.Nodup.filter _ (List.nodup_range _))
  · intro v hv hvz
    refine Or.inr ?_
    rw [List.mem_reverse, List.mem_filter]
    refine ⟨List.mem_range.mpr hv, ?_⟩
    rw [List.getD_eq_getElem?_getD] at hvz
    simp [hvz]

/-- A successful `topological_sort` returns a permutation of `[0..n)`
that is topologically ordered with respect to the adjacency. -/
theorem topological_sort_spec (adj : List (List ℕ)) (hWF : AdjWF adj)
    (ord : List ℕ) (h : topological_sort adj = some ord) :
    ord.Perm (List.range adj.length) ∧
      ∀ u v, v ∈ adj.getD u [] → u ∈ ord ∧ ord.indexOf u < ord.indexOf v := by
  rw [topological_sort] at h
  set indep0 := ((List.range adj.length).filter
    (fun i => ((buildIncoming adj).getD i []).isEmpty)).reverse with hindep0
  set r := kahnLoop (sumLen adj + adj.length) adj (buildIncoming adj) indep0 [] with hr
  by_cases hall : r.1.all List.isEmpty
  swap
  · rw [if_neg hall] at h; exact absurd h (by simp)
  rw [if_pos hall] at h
  have hord : r.2 = ord := Option.some.inj h
  have hfuel : sumLen adj + indep0.length ≤ sumLen adj + adj.length := by
    have h1 : indep0.length ≤ adj.length := by
      rw [hindep0, List.length_reverse]
      exact le_trans (List.length_filter_le _ _) (by rw [List.length_range])
    omega
  obtain ⟨nodes2, hInv⟩ := kahnLoop_inv adj hWF
    (sumLen adj + adj.length) adj (buildIncoming adj) indep0 []
    hfuel (kahn_init adj hWF)
  rw [← hr] at hInv
  have hinc_all : ∀ v, v < adj.length → r.1.getD v [] = [] := by
    intro v hv
    have hv' : v < r.1.length := by rw [hInv.inc_len]; exact hv
    rw [List.getD_eq_getElem _ _ hv']
    exact List.isEmpty_iff.mp (by
      have := List.all_eq_true.mp hall _ (List.getElem_mem hv')
      simpa using this)
  have hcov : ∀ v, v < adj.length → v ∈ r.2 := by
    intro v hv
    rcases hInv.cover v hv (hinc_all v hv) with hc | hc
    · exact hc
    · exact absurd hc (List.not_mem_nil v)
  have hperm : r.2.Perm (List.range adj.length) := by
    rw [List.perm_ext_iff_of_nodup hInv.order_nodup (List.nodup_range _)]
    intro a
    constructor
    · intro ha
      exact List.mem_range.mpr (hInv.order_lt a ha)
    · intro ha
      exact hcov a (List.mem_range.mp ha)
  subst hord
  refine ⟨hperm, fun u v hv => ?_⟩
  have hu_lt : u < adj.length := by
    by_contra hnu
    push_neg at hnu
    rw [List.getD_eq_default _ _ hnu] at hv
    exact absurd hv (List.not_mem_nil v)
  have hv_lt : v < adj.length := by
    have hmem : adj.getD u [] ∈ adj := by
      rw [List.getD_eq_getElem _ _ hu_lt]
      exact List.getElem_mem _
    exact (hWF _ hmem).2 v hv
  exact hInv.topo u v hv (hcov v hv_lt)

/-- On a well-formed, forward-pointing adjacency, `topological_sort`
succeeds. -/
theorem topological_sort_isSome_of_forward (adj : List (List ℕ)) (hWF : AdjWF adj)
    (hFwd : ∀ u v, v ∈ adj.getD u [] → u < v) :
    ∃ ord, topological_sort adj = some ord := by
  rw [topological_sort]
  set indep0 := ((List.range adj.length).filter
    (fun i => ((buildIncoming adj).getD i []).isEmpty)).reverse with hindep0
  set r := kahnLoop (sumLen adj + adj.length) adj (buildIncoming adj) indep0 [] with hr
  have hfuel : sumLen adj + indep0.length ≤ sumLen adj + adj.length := by
    have h1 : indep0.length ≤ adj.length := by
      rw [hindep0, List.length_reverse]
      exact le_trans (List.length_filter_le _ _) (by rw [List.length_range])
    omega
  obtain ⟨nodes2, hInv⟩ := kahnLoop_inv adj hWF
    (sumLen adj + adj.length) adj (buildIncoming adj) indep0 []
    hfuel (kahn_init adj hWF)
  rw [← hr] at hInv
  have hall_ord : ∀ v, v < adj.length → v ∈ r.2 := by
    intro v
    induction v using Nat.strong_induction_on with
    | _ v ihv =>
        intro hv
        by_contra hvo
        have hne : r.1.getD v [] ≠ [] := by
          intro hz
          rcases hInv.cover v hv hz with hc | hc
          · exact hvo hc
          · exact absurd hc (List.not_mem_nil v)
        rw [hInv.inc_spec v] at hne
        obtain ⟨u, hu⟩ := List.exists_mem_of_ne_nil _ hne
        rw [rangeFilter, List.mem_filter] at hu
        obtain ⟨hu1, hu2⟩ := hu
        simp only [Bool.and_eq_true, decide_eq_true_eq] at hu2
        obtain ⟨huo, hue⟩ := hu2
        have hulv : u < v := hFwd u v hue
        exact huo (ihv u hulv (List.mem_range.mp hu1))
  have hinc_all : ∀ v, r.1.getD v [] = [] := by
    intro v
    rw [hInv.inc_spec v, rangeFilter]
    refine List.filter_eq_nil_iff.mpr fun u hu => ?_
    simp only [Bool.and_eq_true, decide_eq_true_eq, not_and]
    intro huo
    exact absurd (hall_ord u (List.mem_range.mp hu)) huo
  have hall : r.1.all List.isEmpty = true := by
    rw [List.all_eq_true]
    intro l hl
    obtain ⟨k, hk, hlk⟩ := List.mem_iff_getElem.mp hl
    have := hinc_all k
    rw [List.getD_eq_getElem _ _ hk, hlk] at this
    simp [this]
  rw [if_pos hall]
  exact ⟨r.2, rfl⟩

/-- A successful sort certifies acyclicity of the adjacency. -/
theorem acyclic_of_topological_sort_some (adj : List (List ℕ)) (hWF : AdjWF adj)
    (ord : List ℕ) (h : topological_sort adj = some ord) : Acyclic adj := by
  obtain ⟨_, htopo⟩ := topological_sort_spec adj hWF ord h
  have hmono : ∀ a b, Relation.TransGen (adjRel adj) a b →
      ord.indexOf a < ord.indexOf b := by
    intro a b htg
    induction htg with
    | single hab => exact (htopo _ _ hab).2
    | tail _ hbc ih => exact lt_trans ih (htopo _ _ hbc).2
  intro x htg
  exact lt_irrefl _ (hmono x x htg)

/-! ### Correctness of the in-place `permute` -/

theorem listSwap_length {α : Type} (l : List α) (a b : ℕ) :
    (listSwap l a b).length = l.length := by
  rw [listSwap]
  rcases h1 : l.get? a with _ | x <;> rcases h2 : l.get? b with _ | y <;>
    simp [List.length_set]

theorem listSwap_eq_of_lt {α : Type} [Inhabited α] (l : List α) (a b : ℕ)
    (ha : a < l.length) (hb : b < l.length) :
    listSwap l a b = (l.set a (l.getD b default)).set b (l.getD a default) := by
  have h1 : l.get? a = some (l.getD a default) := by
    rw [List.get?_eq_getElem?, List.getElem?_eq_getElem ha, List.getD_eq_getElem _ _ ha]
  have h2 : l.get? b = some (l.getD b default) := by
    rw [List.get?_eq_getElem?, List.getElem?_eq_getElem hb, List.getD_eq_getElem _ _ hb]
  rw [listSwap, h1, h2]

theorem listSwap_getD_fst {α : Type} [Inhabited α] (l : List α) (a b : ℕ)
    (ha : a < l.length) (hb : b < l.length) :
    (listSwap l a b).getD a default = l.getD b default := by
  rw [listSwap_eq_of_lt l a b ha hb]
  by_cases hab : a = b
  · subst hab
    rw [getD_set_self _ _ _ _ (by rw [List.length_set]; exact ha)]
  · rw [getD_set_ne _ _ _ (fun h => hab h.symm), getD_set_self _ _ _ _ ha]

theorem listSwap_getD_snd {α : Type} [Inhabited α] (l : List α) (a b : ℕ)
    (ha : a < l.length) (hb : b < l.length) :
    (listSwap l a b).getD b default = l.getD a default := by
  rw [listSwap_eq_of_lt l a b ha hb]
  rw [getD_set_self _ _ _ _ (by rw [List.length_set]; exact hb)]

theorem listSwap_getD_other {α : Type} [Inhabited α] (l : List α) (a b j : ℕ)
    (ha : a < l.length) (hb : b < l.length) (hja : j ≠ a) (hjb : j ≠ b) :
    (listSwap l a b).getD j default = l.getD j default := by
  rw [listSwap_eq_of_lt l a b ha hb,
    getD_set_ne _ _ _ (fun h => hjb h.symm), getD_set_ne _ _ _ (fun h => hja h.symm)]

/-- The permutation map encoded by the (original) index list. -/
def piFn (idx0 : List ℕ) (p : ℕ) : ℕ := idx0.getD p 0

/-- Position `j` has been settled by the cycle-following loop. -/
def doneAt (idx : List ℕ) (j : ℕ) : Prop := idx.getD j 0 = j

theorem piFn_lt (idx0 : List ℕ) (hperm : idx0.Perm (List.range idx0.length))
    (p : ℕ) (hp : p < idx0.length) : piFn idx0 p < idx0.length := by
  rw [piFn, List.getD_eq_getElem _ _ hp]
  have : idx0[p] ∈ idx0 := List.getElem_mem hp
  rw [hperm.mem_iff, List.mem_range] at this
  exact this

theorem piFn_inj (idx0 : List ℕ) (hperm : idx0.Perm (List.range idx0.length))
    (p q : ℕ) (hp : p < idx0.length) (hq : q < idx0.length)
    (h : piFn idx0 p = piFn idx0 q) : p = q := by
  have hnd : idx0.Nodup := hperm.nodup_iff.mpr (List.nodup_range _)
  rw [piFn, piFn, List.getD_eq_getElem _ _ hp, List.getD_eq_getElem _ _ hq] at h
  exact (List.Nodup.getElem_inj_iff hnd).mp h

theorem piFn_iterate_lt (idx0 : List ℕ) (hperm : idx0.Perm (List.range idx0.length))
    (i : ℕ) (hi : i < idx0.length) (m : ℕ) :
    (piFn idx0)^[m] i < idx0.length := by
  induction m with
  | zero => exact hi
  | succ m ih =>
      rw [Function.iterate_succ_apply']
      exact piFn_lt idx0 hperm _ ih

theorem piFn_iterate_cancel (idx0 : List ℕ)
    (hperm : idx0.Perm (List.range idx0.length)) (a : ℕ) :
    ∀ x y, x < idx0.length → y < idx0.length →
      (piFn idx0)^[a] x = (piFn idx0)^[a] y → x = y := by
  induction a with
  | zero => intro x y _ _ h; exact h
  | succ a ih =>
      intro x y hx hy h
      rw [Function.iterate_succ_apply, Function.iterate_succ_apply] at h
      exact piFn_inj idx0 hperm x y hx hy
        (ih _ _ (piFn_lt idx0 hperm x hx) (piFn_lt idx0 hperm y hy) h)

theorem piFn_iterate_ret (idx0 : List ℕ)
    (hperm : idx0.Perm (List.range idx0.length)) (i : ℕ) (hi : i < idx0.length)
    (a b : ℕ) (hab : a < b) (h : (piFn idx0)^[a] i = (piFn idx0)^[b] i) :
    (piFn idx0)^[b - a] i = i := by
  have hb : b = a + (b - a) := by omega
  rw [hb, Function.iterate_add_apply] at h
  exact (piFn_iterate_cancel idx0 hperm a i _ hi
    (piFn_iterate_lt idx0 hperm i hi _) h).symm

/-- Pigeonhole bound on the walk length: if no proper iterate up to `k`
returns to the start, then `k ≤ n`. -/
theorem piFn_seg_bound (idx0 : List ℕ)
    (hperm : idx0.Perm (List.range idx0.length)) (i : ℕ) (hi : i < idx0.length)
    (k : ℕ) (hnoexit : ∀ m, 1 ≤ m → m ≤ k → (piFn idx0)^[m] i ≠ i) :
    k ≤ idx0.length := by
  have hnd : ((List.range (k + 1)).map (fun m => (piFn idx0)^[m] i)).Nodup := by
    refine List.Nodup.map_on ?_ (List.nodup_range _)
    intro a ha b hb hab
    rw [List.mem_range] at ha hb
    by_contra hne
    rcases Nat.lt_or_ge a b with h | h
    · exact hnoexit (b - a) (by omega) (by omega)
        (piFn_iterate_ret idx0 hperm i hi a b h hab)
    · have h2 : b < a := by omega
      exact hnoexit (a - b) (by omega) (by omega)
        (piFn_iterate_ret idx0 hperm i hi b a h2 hab.symm)
  have hsub : ((List.range (k + 1)).map (fun m => (piFn idx0)^[m] i)) ⊆
      List.range idx0.length := by
    intro x hx
    rw [List.mem_map] at hx
    obtain ⟨m, _, hm⟩ := hx
    rw [List.mem_range, ← hm]
    exact piFn_iterate_lt idx0 hperm i hi m
  have := (hnd.subperm hsub).length_le
  simp only [List.length_map, List.length_range] at this
  omega

/-- Full specification of one cycle walk of `permute`: starting at an
unsettled position `i013`, the walk settles exactly the orbit of `i013`,
placing `s0[piFn j]` at every settled position `j` and leaving the
unsettled positions untouched. -/
theorem cycleWalk_spec {α : Type} [Inhabited α] (s0 : List α) (idx0 : List ℕ)
    (hperm : idx0.Perm (List.range idx0.length))
    (hs0len : s0.length = idx0.length)
    (idxE : List ℕ) (i013 : ℕ) (hi : i013 < idx0.length)
    (hseg_not_entry : ∀ m, ¬doneAt idxE ((piFn idx0)^[m] i013)) :
    ∀ (fuel : ℕ) (k current : ℕ) (s : List α) (idx : List ℕ),
      fuel + k = idx0.length + 1 →
      current = (piFn idx0)^[k] i013 →
      (∀ m, 1 ≤ m → m ≤ k → (piFn idx0)^[m] i013 ≠ i013) →
      s.length = s0.length → idx.length = idx0.length →
      (∀ j, j < idx0.length →
        (doneAt idx j ↔ (doneAt idxE j ∨ ∃ m, m < k ∧ (piFn idx0)^[m] i013 = j))) →
      (∀ j, j < idx0.length → doneAt idx j →
        s.getD j default = s0.getD (piFn idx0 j) default) →
      (∀ j, j < idx0.length → ¬doneAt idx j → idx.getD j 0 = piFn idx0 j) →
      (∀ j, j < idx0.length → ¬doneAt idx j → j ≠ current →
        s.getD j default = s0.getD j default) →
      s.getD current default = s0.getD i013 default →
      (cycleWalk fuel s idx i013 current).1.length = s0.length ∧
      (cycleWalk fuel s idx i013 current).2.length = idx0.length ∧
      (∃ c, 0 < c ∧ (piFn idx0)^[c] i013 = i013 ∧
        (∀ j, j < idx0.length →
          (doneAt (cycleWalk fuel s idx i013 current).2 j ↔
            (doneAt idxE j ∨ ∃ m, m < c ∧ (piFn idx0)^[m] i013 = j)))) ∧
      (∀ j, j < idx0.length → doneAt (cycleWalk fuel s idx i013 current).2 j →
        (cycleWalk fuel s idx i013 current).1.getD j default =
          s0.getD (piFn idx0 j) default) ∧
      (∀ j, j < idx0.length → ¬doneAt (cycleWalk fuel s idx i013 current).2 j →
        (cycleWalk fuel s idx i013 current).2.getD j 0 = piFn idx0 j ∧
        (cycleWalk fuel s idx i013 current).1.getD j default =
          s0.getD j default) := by
  intro fuel
  induction fuel with
  | zero =>
      intro k current s idx hfuel _ hnoexit _ _ _ _ _ _ _
      exfalso
      have := piFn_seg_bound idx0 hperm i013 hi k hnoexit
      omega
  | succ fuel ih =>
      intro k current s idx hfuel hcur hnoexit hslen hidxlen hdone_char
        hdone_spec hundone_idx hundone_s hcur_s
      have hcur_lt : current < idx0.length := hcur ▸ piFn_iterate_lt idx0 hperm i013 hi k
      have hcur_undone : ¬doneAt idx current := by
        rw [hdone_char current hcur_lt]
        rintro (h | ⟨m, hm, hmi⟩)
        · exact hseg_not_entry k (hcur ▸ h)
        · rw [hcur] at hmi
          exact hnoexit (k - m) (by omega) (by omega)
            (piFn_iterate_ret idx0 hperm i013 hi m k hm hmi)
      have hidx_cur : idx.getD current 0 = piFn idx0 current :=
        hundone_idx current hcur_lt hcur_undone
      rw [cycleWalk]
      by_cases hexit : idx.getD current 0 = i013
      · rw [if_pos hexit]
        have hpc : piFn idx0 current = i013 := by rw [← hidx_cur]; exact hexit
        have hdone' : ∀ j, j < idx0.length →
            (doneAt (idx.set current current) j ↔ (j = current ∨ doneAt idx j)) := by
          intro j hj
          by_cases hjc : j = current
          · subst hjc
            rw [doneAt, getD_set_self _ _ _ _ (by rw [hidxlen]; exact hcur_lt)]
            simp
          · rw [doneAt, getD_set_ne _ _ _ (fun h => hjc h.symm)]
            simp [doneAt, hjc]
        refine ⟨hslen, by rw [List.length_set]; exact hidxlen,
          ⟨k + 1, by omega, ?_, ?_⟩, ?_, ?_⟩
        · rw [Function.iterate_succ_apply', ← hcur, ← hidx_cur, hexit]
        · intro j hj
          rw [hdone' j hj, hdone_char j hj]
          constructor
          · rintro (h | h | h)
            · exact Or.inr ⟨k, by omega, by rw [← hcur, h]⟩
            · exact Or.inl h
            · obtain ⟨m, hm, hmi⟩ := h
              exact Or.inr ⟨m, by omega, hmi⟩
          · rintro (h | ⟨m, hm, hmi⟩)
            · exact Or.inr (Or.inl h)
            · by_cases hmk : m = k
              · subst hmk
                exact Or.inl (by rw [← hmi, hcur])
              · exact Or.inr (Or.inr ⟨m, by omega, hmi⟩)
        · intro j hj hjdone
          rw [hdone' j hj] at hjdone
          rcases hjdone with h | h
          · subst h
            rw [hcur_s, hpc]
          · exact hdone_spec j hj h
        · intro j hj hjundone
          rw [hdone' j hj] at hjundone
          push_neg at hjundone
          obtain ⟨hjc, hjund⟩ := hjundone
          refine ⟨?_, hundone_s j hj hjund hjc⟩
          rw [getD_set_ne _ _ _ (fun h => hjc h.symm)]
          exact hundone_idx j hj hjund
      · rw [if_neg hexit]
        have hnext : idx.getD current 0 = piFn idx0 current := hidx_cur
        have hnext_lt : piFn idx0 current < idx0.length := piFn_lt idx0 hperm _ hcur_lt
        have hnext_iter : piFn idx0 current = (piFn idx0)^[k + 1] i013 := by
          rw [Function.iterate_succ_apply', hcur]
        have hnext_ne_i : piFn idx0 current ≠ i013 := by
          rw [← hidx_cur]; exact hexit
        have hnext_ne_cur : piFn idx0 current ≠ current := by
          intro h
          exact hcur_undone (by rw [doneAt, hidx_cur, h])
        have hnext_undone : ¬doneAt idx (piFn idx0 current) := by
          rw [hdone_char _ hnext_lt]
          rintro (h | ⟨m, hm, hmi⟩)
          · exact hseg_not_entry (k + 1) (hnext_iter ▸ h)
          · rcases Nat.eq_zero_or_pos m with hm0 | hm0
            · subst hm0
              exact hnext_ne_i (by rw [← hmi]; rfl)
            · rw [hnext_iter] at hmi
              exact hnoexit (k + 1 - m) (by omega) (by omega)
                (piFn_iterate_ret idx0 hperm i013 hi m (k + 1) (by omega) hmi)
        have hswap_len : (listSwap s current (idx.getD current 0)).length = s0.length := by
          rw [listSwap_length]; exact hslen
        have hset_len : (idx.set current current).length = idx0.length := by
          rw [List.length_set]; exact hidxlen
        have hcur_s_lt : current < s.length := by rw [hslen, hs0len]; exact hcur_lt
        have hnext_s_lt : idx.getD current 0 < s.length := by
          rw [hslen, hs0len, hnext]; exact hnext_lt
        have hdone1 : ∀ j, j < idx0.length →
            (doneAt (idx.set current current) j ↔ (j = current ∨ doneAt idx j)) := by
          intro j hj
          by_cases hjc : j = current
          · subst hjc
            rw [doneAt, getD_set_self _ _ _ _ (by rw [hidxlen]; exact hcur_lt)]
            simp
          · rw [doneAt, getD_set_ne _ _ _ (fun h => hjc h.symm)]
            simp [doneAt, hjc]
        refine ih (k + 1) (idx.getD current 0)
          (listSwap s current (idx.getD current 0)) (idx.set current current)
          (by omega) (by rw [hnext, hnext_iter]) ?_ hswap_len hset_len ?_ ?_ ?_ ?_ ?_
        · intro m hm1 hmk
          by_cases hmk1 : m = k + 1
          · subst hmk1
            rw [← hnext_iter]
            exact hnext_ne_i
          · exact hnoexit m hm1 (by omega)
        · intro j hj
          rw [hdone1 j hj, hdone_char j hj]
          constructor
          · rintro (h | h | h)
            · exact Or.inr ⟨k, by omega, by rw [← hcur, h]⟩
            · exact Or.inl h
            · obtain ⟨m, hm, hmi⟩ := h
              exact Or.inr ⟨m, by omega, hmi⟩
          · rintro (h | ⟨m, hm, hmi⟩)
            · exact Or.inr (Or.inl h)
            · by_cases hmk : m = k
              · subst hmk
                exact Or.inl (by rw [← hmi, hcur])
              · exact Or.inr (Or.inr ⟨m, by omega, hmi⟩)
        · intro j hj hjdone
          rw [hdone1 j hj] at hjdone
          rcases hjdone with h | h
          · subst h
            rw [listSwap_getD_fst _ _ _ hcur_s_lt hnext_s_lt, hnext]
            rw [hundone_s _ hnext_lt hnext_undone hnext_ne_cur]
          · have hjne_cur : j ≠ current := fun hc => hcur_undone (hc ▸ h)
            have hjne_next : j ≠ idx.getD current 0 := by
              rw [hnext]
              intro hc
              exact hnext_undone (hc ▸ h)
            rw [listSwap_getD_other _ _ _ _ hcur_s_lt hnext_s_lt hjne_cur hjne_next]
            exact hdone_spec j hj h
        · intro j hj hjundone
          rw [hdone1 j hj] at hjundone
          push_neg at hjundone
          rw [getD_set_ne _ _ _ (fun h => hjundone.1 h.symm)]
          exact hundone_idx j hj hjundone.2
        · intro j hj hjundone hjne_next
          rw [hdone1 j hj] at hjundone
          push_neg at hjundone
          rw [listSwap_getD_other _ _ _ _ hcur_s_lt hnext_s_lt hjundone.1 hjne_next]
          exact hundone_s j hj hjundone.2 hjundone.1
        · rw [listSwap_getD_snd _ _ _ hcur_s_lt hnext_s_lt]
          exact hcur_s

/-- Invariant of the outer `for i in 0..len` loop of `permute`. -/
theorem permuteFold_inv {α : Type} [Inhabited α] (s0 : List α) (idx0 : List ℕ)
    (hperm : idx0.Perm (List.range idx0.length))
    (hs0len : s0.length = idx0.length) :
    ∀ m, m ≤ idx0.length →
      ((List.range m).foldl
          (fun p i => cycleWalk (idx0.length + 1) p.1 p.2 i i) (s0, idx0)).1.length
        = s0.length ∧
      ((List.range m).foldl
          (fun p i => cycleWalk (idx0.length + 1) p.1 p.2 i i) (s0, idx0)).2.length
        = idx0.length ∧
      (∀ j, j < idx0.length →
        doneAt ((List.range m).foldl
          (fun p i => cycleWalk (idx0.length + 1) p.1 p.2 i i) (s0, idx0)).2 j →
        ((List.range m).foldl
          (fun p i => cycleWalk (idx0.length + 1) p.1 p.2 i i) (s0, idx0)).1.getD j default
          = s0.getD (piFn idx0 j) default) ∧
      (∀ j, j < idx0.length →
        ¬doneAt ((List.range m).foldl
          (fun p i => cycleWalk (idx0.length + 1) p.1 p.2 i i) (s0, idx0)).2 j →
        ((List.range m).foldl
          (fun p i => cycleWalk (idx0.length + 1) p.1 p.2 i i) (s0, idx0)).2.getD j 0
          = piFn idx0 j ∧
        ((List.range m).foldl
          (fun p i => cycleWalk (idx0.length + 1) p.1 p.2 i i) (s0, idx0)).1.getD j default
          = s0.getD j default) ∧
      (∀ j, j < idx0.length →
        (doneAt ((List.range m).foldl
          (fun p i => cycleWalk (idx0.length + 1) p.1 p.2 i i) (s0, idx0)).2 j ↔
         doneAt ((List.range m).foldl
          (fun p i => cycleWalk (idx0.length + 1) p.1 p.2 i i) (s0, idx0)).2
            (piFn idx0 j))) ∧
      (∀ j, j < m → doneAt ((List.range m).foldl
          (fun p i => cycleWalk (idx0.length + 1) p.1 p.2 i i) (s0, idx0)).2 j) := by
  intro m
  induction m with
  | zero =>
      intro _
      rw [List.range_zero, List.foldl_nil]
      refine ⟨rfl, rfl, ?_, ?_, ?_, ?_⟩
      · intro j _ hj
        rw [doneAt] at hj
        rw [piFn, hj]
      · intro j _ _
        exact ⟨rfl, rfl⟩
      · intro j hj
        rw [doneAt, doneAt]
        constructor
        · intro h
          rw [show piFn idx0 j = j from h]
          exact h
        · intro h
          exact piFn_inj idx0 hperm _ _ (piFn_lt idx0 hperm j hj) hj h
      · intro j hj
        exact absurd hj (Nat.not_lt_zero j)
  | succ m ihm =>
      intro hm
      have hmlt : m < idx0.length := hm
      obtain ⟨h1, h2, h3, h4, h5, h6⟩ := ihm (le_of_lt hmlt)
      set st := (List.range m).foldl
        (fun p i => cycleWalk (idx0.length + 1) p.1 p.2 i i) (s0, idx0) with hst
      have hstep : (List.range (m + 1)).foldl
          (fun p i => cycleWalk (idx0.length + 1) p.1 p.2 i i) (s0, idx0) =
          cycleWalk (idx0.length + 1) st.1 st.2 m m := by
        rw [List.range_succ, List.foldl_append, List.foldl_cons, List.foldl_nil]
      rw [hstep]
      by_cases hdone : doneAt st.2 m
      · have hwalk : cycleWalk (idx0.length + 1) st.1 st.2 m m =
            (st.1, st.2.set m m) := by
          have hdone2 : st.2.getD m 0 = m := hdone
          rw [cycleWalk, if_pos hdone2]
        rw [hwalk]
        have hgetDeq : ∀ j, (st.2.set m m).getD j 0 = st.2.getD j 0 := by
          intro j
          by_cases hj : j = m
          · subst hj
            rw [getD_set_self _ _ _ _ (by rw [h2]; exact hmlt)]
            exact hdone.symm
          · exact getD_set_ne _ _ _ (fun h => hj h.symm)
        have hdoneeq : ∀ j, doneAt (st.2.set m m) j ↔ doneAt st.2 j := by
          intro j
          rw [doneAt, doneAt, hgetDeq]
        refine ⟨h1, by rw [List.length_set]; exact h2, ?_, ?_, ?_, ?_⟩
        · intro j hj hd
          exact h3 j hj ((hdoneeq j).mp hd)
        · intro j hj hd
          rw [hgetDeq]
          exact ⟨(h4 j hj ((hdoneeq j).not.mp hd)).1,
            (h4 j hj ((hdoneeq j).not.mp hd)).2⟩
        · intro j hj
          rw [hdoneeq, hdoneeq]
          exact h5 j hj
        · intro j hj
          rw [hdoneeq]
          rcases Nat.lt_or_ge j m with h | h
          · exact h6 j h
          · have : j = m := by omega
            subst this
            exact hdone
      · have hseg : ∀ mm, ¬doneAt st.2 ((piFn idx0)^[mm] m) := by
          intro mm
          induction mm with
          | zero => exact hdone
          | succ mm ihmm =>
              rw [Function.iterate_succ_apply']
              intro hc
              exact ihmm ((h5 _ (piFn_iterate_lt idx0 hperm m hmlt mm)).mpr hc)
        have hspec := cycleWalk_spec s0 idx0 hperm hs0len st.2 m hmlt hseg
          (idx0.length + 1) 0 m st.1 st.2 (by omega) rfl (by omega) h1 h2
          (by
            intro j hj
            constructor
            · intro h; exact Or.inl h
            · rintro (h | ⟨mm, hmm, _⟩)
              · exact h
              · omega)
          h3 (fun j hj hu => (h4 j hj hu).1) (fun j hj hu _ => (h4 j hj hu).2)
          ((h4 m hmlt hdone).2)
        obtain ⟨w1, w2, ⟨c, hc0, hcc, wchar⟩, w3, w4⟩ := hspec
        refine ⟨w1, w2, w3, fun j hj hu => w4 j hj hu, ?_, ?_⟩
        · intro j hj
          have hpij_lt : piFn idx0 j < idx0.length := piFn_lt idx0 hperm j hj
          rw [wchar j hj, wchar _ hpij_lt]
          constructor
          · rintro (h | ⟨mm, hmm, hmi⟩)
            · exact Or.inl ((h5 j hj).mp h)
            · have hstep1 : (piFn idx0)^[mm + 1] m = piFn idx0 j := by
                rw [Function.iterate_succ_apply', hmi]
              by_cases hmc : mm + 1 = c
              · refine Or.inr ⟨0, hc0, ?_⟩
                rw [Function.iterate_zero_apply, ← hstep1, hmc, hcc]
              · exact Or.inr ⟨mm + 1, by omega, hstep1⟩
          · rintro (h | ⟨mm, hmm, hmi⟩)
            · exact Or.inl ((h5 j hj).mpr h)
            · rcases Nat.eq_zero_or_pos mm with hmm0 | hmm0
              · subst hmm0
                rw [Function.iterate_zero_apply] at hmi
                refine Or.inr ⟨c - 1, by omega, ?_⟩
                refine piFn_inj idx0 hperm _ _
                  (piFn_iterate_lt idx0 hperm m hmlt _) hj ?_
                have hc1 : (c - 1).succ = c := by omega
                rw [← Function.iterate_succ_apply' (piFn idx0) (c - 1) m, hc1, hcc,
                  ← hmi]
              · refine Or.inr ⟨mm - 1, by omega, ?_⟩
                refine piFn_inj idx0 hperm _ _
                  (piFn_iterate_lt idx0 hperm m hmlt _) hj ?_
                have hm1 : (mm - 1).succ = mm := by omega
                rw [← Function.iterate_succ_apply' (piFn idx0) (mm - 1) m, hm1, hmi]
        · intro j hj
          rcases Nat.lt_or_ge j m with h | h
          · rw [wchar j (by omega)]
            exact Or.inl (h6 j h)
          · have : j = m := by omega
            subst this
            rw [wchar j (by omega)]
            exact Or.inr ⟨0, hc0, Function.iterate_zero_apply _ _⟩

/-- `permute slice indices` places `slice[indices[p]]` at position `p`,
for any `indices` that is a permutation of `[0..len)`. -/
theorem permute_spec {α : Type} [Inhabited α] (slice : List α) (indices : List ℕ)
    (hperm : indices.Perm (List.range indices.length))
    (hlen : slice.length = indices.length) :
    permute slice indices =
      (List.range indices.length).map
        (fun p => slice.getD (indices.getD p 0) default) := by
  obtain ⟨h1, h2, h3, _, _, h7⟩ :=
    permuteFold_inv slice indices hperm hlen indices.length le_rfl
  rw [permute]
  refine List.ext_getElem (by rw [h1, hlen]; simp) ?_
  intro j hj1 hj2
  have hjlt : j < indices.length := by
    rw [h1, hlen] at hj1
    exact hj1
  have hdj : doneAt ((List.range indices.length).foldl
      (fun p i => cycleWalk (indices.length + 1) p.1 p.2 i i) (slice, indices)).2 j :=
    h7 j hjlt
  have := h3 j hjlt hdj
  rw [List.getD_eq_getElem _ _ hj1] at this
  rw [this]
  rw [List.getElem_map, List.getElem_range]
  rfl

/-! ### Graph-level plumbing -/

instance {I D : Type} [Inhabited I] [Inhabited D] : Inhabited (AGNode I D) :=
  ⟨⟨default, default, []⟩⟩

namespace AudioGraph

variable {I D : Type}

/-- Node at an index (total; used only in bounds). -/
def nodeAt [Inhabited I] [Inhabited D] (g : AudioGraph I D) (u : ℕ) : AGNode I D :=
  g.ordered_nodes.getD u default

/-- Total number of edges in the graph. -/
def edgeCount (g : AudioGraph I D) : ℕ :=
  (g.ordered_nodes.map (fun nd => nd.edges.length)).sum

theorem edgesAt_eq (g : AudioGraph I D) (u : ℕ) (hu : u < g.len) :
    g.edgesAt u = g.ordered_nodes[u].edges := by
  rw [edgesAt, List.get?_eq_getElem?, List.getElem?_eq_getElem hu]
  rfl

theorem edgesAt_of_ge (g : AudioGraph I D) (u : ℕ) (hu : g.len ≤ u) :
    g.edgesAt u = [] := by
  rw [edgesAt, List.get?_eq_getElem?, List.getElem?_eq_none (by exact hu)]
  rfl

theorem pushEdgeAt_len (g : AudioGraph I D) (u : ℕ) (e : Edge) :
    (g.pushEdgeAt u e).len = g.len := by
  rw [pushEdgeAt, len, len, modifyAt]
  rcases h : g.ordered_nodes.get? u with _ | nd
  · rfl
  · rw [List.length_set]

theorem pushEdgeAt_edgesAt_self (g : AudioGraph I D) (u : ℕ) (e : Edge)
    (hu : u < g.len) :
    (g.pushEdgeAt u e).edgesAt u = g.edgesAt u ++ [e] := by
  have hget : g.ordered_nodes.get? u = some g.ordered_nodes[u] := by
    rw [List.get?_eq_getElem?, List.getElem?_eq_getElem hu]
  rw [pushEdgeAt, modifyAt, hget]
  have hu2 : u < (g.ordered_nodes.set u
      { g.ordered_nodes[u] with
        edges := g.ordered_nodes[u].edges ++ [e] }).length := by
    rw [List.length_set]; exact hu
  rw [edgesAt, List.get?_eq_getElem?, List.getElem?_eq_getElem hu2]
  rw [List.getElem_set_self]
  rw [edgesAt_eq g u hu]
  rfl

theorem pushEdgeAt_edgesAt_other (g : AudioGraph I D) (u w : ℕ) (e : Edge)
    (hw : w ≠ u) :
    (g.pushEdgeAt u e).edgesAt w = g.edgesAt w := by
  rw [pushEdgeAt, modifyAt]
  rcases h : g.ordered_nodes.get? u with _ | nd
  · rfl
  · rw [edgesAt, edgesAt, List.get?_eq_getElem?, List.get?_eq_getElem?,
      List.getElem?_set_ne (fun hc => hw hc.symm)]

theorem normalAdj_length (g : AudioGraph I D) : (g.normalAdj).length = g.len := by
  rw [normalAdj, List.length_map]; rfl

theorem normalAdj_getD (g : AudioGraph I D) (u : ℕ) :
    (g.normalAdj).getD u [] = (g.edgesAt u).filterMap Edge.index_if_normal := by
  rw [List.getD_eq_getElem?_getD, normalAdj, List.getElem?_map, edgesAt,
    List.get?_eq_getElem?]
  rcases h : g.ordered_nodes[u]? with _ | nd <;> rfl

/-- Adding a feedback edge does not change the `Normal` adjacency. -/
theorem normalAdj_pushFeedback (g : AudioGraph I D) (u v : ℕ) :
    (g.pushEdgeAt u (.feedback v)).normalAdj = g.normalAdj := by
  refine List.ext_getElem
    (by rw [normalAdj_length, normalAdj_length, pushEdgeAt_len]) ?_
  intro j hj1 hj2
  have hjlen : j < g.len := by rw [normalAdj_length] at hj2; exact hj2
  rw [← List.getD_eq_getElem _ ([] : List ℕ) hj1, ← List.getD_eq_getElem _ ([] : List ℕ) hj2]
  by_cases hju : j = u
  · subst hju
    rw [normalAdj_getD, normalAdj_getD, pushEdgeAt_edgesAt_self g j _ hjlen,
      List.filterMap_append]
    simp [Edge.index_if_normal]
  · rw [normalAdj_getD, normalAdj_getD, pushEdgeAt_edgesAt_other g u j _ hju]

theorem normalAdj_pushNormal_self (g : AudioGraph I D) (u v : ℕ) (hu : u < g.len) :
    ((g.pushEdgeAt u (.normal v)).normalAdj).getD u [] =
      (g.normalAdj).getD u [] ++ [v] := by
  rw [normalAdj_getD, normalAdj_getD, pushEdgeAt_edgesAt_self g u _ hu,
    List.filterMap_append]
  simp [Edge.index_if_normal]

theorem normalAdj_pushNormal_other (g : AudioGraph I D) (u w v : ℕ) (hw : w ≠ u) :
    ((g.pushEdgeAt u (.normal v)).normalAdj).getD w [] = (g.normalAdj).getD w [] := by
  rw [normalAdj_getD, normalAdj_getD, pushEdgeAt_edgesAt_other g u w _ hw]

end AudioGraph

/-- Demoting the freshly pushed `Normal` edge yields exactly the same
graph as pushing the corresponding `Feedback` edge. -/
theorem demote_push {I D : Type} (g : AudioGraph I D) (u v : ℕ) :
    (g.pushEdgeAt u (.normal v)).demoteLastEdge u = g.pushEdgeAt u (.feedback v) := by
  rcases h : g.ordered_nodes.get? u with _ | nd
  · have h2 : g.ordered_nodes[u]? = none := by
      rw [← List.get?_eq_getElem?]; exact h
    simp [AudioGraph.pushEdgeAt, AudioGraph.demoteLastEdge, modifyAt, h, h2]
  · have hu : u < g.ordered_nodes.length := by
      rw [List.get?_eq_getElem?] at h
      exact (List.getElem?_eq_some_iff.mp h).1
    have hget2 : (g.ordered_nodes.set u
        { nd with edges := nd.edges ++ [Edge.normal v] }).get? u =
        some { nd with edges := nd.edges ++ [Edge.normal v] } := by
      rw [List.get?_eq_getElem?]
      exact List.getElem?_set_eq_of_lt _ hu
    simp only [AudioGraph.pushEdgeAt, AudioGraph.demoteLastEdge, modifyAt, h, hget2]
    rw [List.set_set]
    congr 1
    rw [List.getLast?_concat]
    simp only [List.dropLast_concat, Edge.set_as_feedback]

/-- Retargeting commutes with extracting the normal targets. -/
theorem filterMap_retag (edges : List Edge) (f : ℕ → ℕ) :
    (edges.map fun e => match e with
      | .normal i => Edge.normal (f i)
      | .feedback i => Edge.feedback (f i)).filterMap Edge.index_if_normal =
      (edges.filterMap Edge.index_if_normal).map f := by
  induction edges with
  | nil => rfl
  | cons e es ih =>
      cases e with
      | normal i =>
          simp only [List.map_cons, List.filterMap_cons, Edge.index_if_normal, ih]
      | feedback i =>
          simp only [List.map_cons, List.filterMap_cons, Edge.index_if_normal, ih]

/-- Retargeting does not change the tag of any edge, only the target. -/
theorem retag_target (e : Edge) (f : ℕ → ℕ) :
    Edge.target (match e with
      | .normal i => Edge.normal (f i)
      | .feedback i => Edge.feedback (f i)) = f e.target := by
  cases e <;> rfl

theorem containsEdge_iff (edges : List Edge) (v : ℕ) :
    containsEdge edges v = true ↔ v ∈ edges.map Edge.target := by
  rw [containsEdge, List.any_eq_true]
  constructor
  · rintro ⟨e, he, hev⟩
    rw [List.mem_map]
    exact ⟨e, he, by simpa using hev⟩
  · intro hv
    rw [List.mem_map] at hv
    obtain ⟨e, he, hev⟩ := hv
    exact ⟨e, he, by simpa using hev⟩

theorem indexOf_getD_self (ord : List ℕ) (hnd : ord.Nodup) (p : ℕ)
    (hp : p < ord.length) : ord.indexOf (ord.getD p 0) = p := by
  have hmem : ord.getD p 0 ∈ ord := by
    rw [List.getD_eq_getElem _ _ hp]
    exact List.getElem_mem hp
  have hlt : ord.indexOf (ord.getD p 0) < ord.length :=
    List.indexOf_lt_length.mpr hmem
  have : ord[ord.indexOf (ord.getD p 0)] = ord[p] := by
    rw [List.getElem_indexOf hlt, List.getD_eq_getElem _ _ hp]
  exact (List.Nodup.getElem_inj_iff hnd).mp this

theorem getD_indexOf_self (ord : List ℕ) (v : ℕ) (hv : v ∈ ord) :
    ord.getD (ord.indexOf v) 0 = v := by
  have hlt : ord.indexOf v < ord.length := List.indexOf_lt_length.mpr hv
  rw [List.getD_eq_getElem _ _ hlt, List.getElem_indexOf hlt]

theorem getD_range_map {α : Type} [Inhabited α] (l : List α) :
    (List.range l.length).map (fun p => l.getD p default) = l := by
  refine List.ext_getElem (by simp) ?_
  intro j hj1 hj2
  rw [List.getElem_map, List.getElem_range, List.getD_eq_getElem _ _ hj2]

/-- Graph well-formedness transfers to the normal adjacency. -/
theorem adjWF_of_graphWF {I D : Type} (g : AudioGraph I D) (hWF : GraphWF g) :
    AdjWF g.normalAdj := by
  intro l hl
  rw [AudioGraph.normalAdj, List.mem_map] at hl
  obtain ⟨nd, hnd, hl⟩ := hl
  obtain ⟨h1, h2⟩ := hWF nd hnd
  subst hl
  constructor
  · have hsub : nd.edges.filterMap Edge.index_if_normal =
        (nd.edges.filter (fun e => (Edge.index_if_normal e).isSome)).map Edge.target := by
      induction nd.edges with
      | nil => rfl
      | cons e es ih =>
          cases e with
          | normal i => simp [Edge.index_if_normal, Edge.target, ih]
          | feedback i => simp [Edge.index_if_normal, ih]
    rw [hsub]
    exact h1.sublist ((List.filter_sublist _).map _)
  · intro v hv
    rw [List.mem_filterMap] at hv
    obtain ⟨e, he, hev⟩ := hv
    have : e.target = v := by
      cases e with
      | normal i => exact Option.some.inj hev
      | feedback i => exact absurd hev (by simp [Edge.index_if_normal])
    rw [AudioGraph.normalAdj_length]
    exact this ▸ h2 e he

/-- What `reorder` does to the node storage: position `p` of the result
holds the old node `ord[p]`, with every edge target `t` rewritten to
`ord.indexOf t` (its new position). -/
theorem reorder_nodes {I D : Type} [Inhabited I] [Inhabited D]
    (g : AudioGraph I D) (ord : List ℕ)
    (hperm : ord.Perm (List.range g.len)) :
    (g.reorder ord).len = g.len ∧
      ∀ p, p < g.len →
        (g.reorder ord).nodeAt p =
          { id := (g.nodeAt (ord.getD p 0)).id,
            data := (g.nodeAt (ord.getD p 0)).data,
            edges := (g.nodeAt (ord.getD p 0)).edges.map
              (fun e => match e with
                | .normal i => Edge.normal (ord.indexOf i)
                | .feedback i => Edge.feedback (ord.indexOf i)) } := by
  have hordlen : ord.length = g.len := by
    have := hperm.length_eq
    rwa [List.length_range] at this
  have hperm2 : ord.Perm (List.range ord.length) := by rw [hordlen]; exact hperm
  have hg1len : (g.retargetEdges (fun i => ord.indexOf i)).ordered_nodes.length =
      ord.length := by
    rw [AudioGraph.retargetEdges, List.length_map, hordlen]; rfl
  have hps := permute_spec (g.retargetEdges (fun i => ord.indexOf i)).ordered_nodes
    ord hperm2 hg1len
  have hlen2 : (g.reorder ord).len = g.len := by
    rw [AudioGraph.reorder, AudioGraph.len, hps, List.length_map,
      List.length_range, hordlen]
  refine ⟨hlen2, ?_⟩
  intro p hp
  have hplt : p < ord.length := by rw [hordlen]; exact hp
  rw [AudioGraph.nodeAt, AudioGraph.reorder, hps]
  have hmaplen : p < ((List.range ord.length).map
      (fun p => (g.retargetEdges (fun i => ord.indexOf i)).ordered_nodes.getD
        (ord.getD p 0) default)).length := by
    rw [List.length_map, List.length_range]; exact hplt
  rw [List.getD_eq_getElem _ _ hmaplen, List.getElem_map, List.getElem_range]
  have ho_lt : ord.getD p 0 < g.len := by
    have : ord.getD p 0 ∈ ord := by
      rw [List.getD_eq_getElem _ _ hplt]
      exact List.getElem_mem hplt
    rw [hperm.mem_iff, List.mem_range] at this
    exact this
  rw [AudioGraph.retargetEdges]
  have ho_lt2 : ord.getD p 0 < g.ordered_nodes.length := ho_lt
  rw [List.getD_eq_getElem _ _ (by rw [List.length_map]; exact ho_lt2),
    List.getElem_map, AudioGraph.nodeAt, List.getD_eq_getElem _ _ ho_lt2]

namespace AudioGraph

variable {I D : Type}

theorem top_level_insert_len (g : AudioGraph I D) (id : I) (data : D) :
    (g.top_level_insert id data).len = g.len + 1 := by
  rw [top_level_insert, len, len, List.length_cons, retargetEdges, List.length_map]

theorem top_level_insert_normalAdj (g : AudioGraph I D) (id : I) (data : D) :
    (g.top_level_insert id data).normalAdj =
      [] :: (g.normalAdj).map (List.map (· + 1)) := by
  rw [top_level_insert, normalAdj, normalAdj, retargetEdges, List.map_cons]
  congr 1
  rw [List.map_map, List.map_map]
  refine List.map_congr_left fun nd _ => ?_
  exact filterMap_retag nd.edges (· + 1)

end AudioGraph

theorem edgesAt_nodeAt {I D : Type} [Inhabited I] [Inhabited D]
    (g : AudioGraph I D) (w : ℕ) (hw : w < g.len) :
    g.edgesAt w = (g.nodeAt w).edges := by
  rw [AudioGraph.edgesAt_eq g w hw, AudioGraph.nodeAt, List.getD_eq_getElem _ _ hw]

theorem graphWF_iff {I D : Type} (g : AudioGraph I D) :
    GraphWF g ↔ ∀ w, w < g.len →
      ((g.edgesAt w).map Edge.target).Nodup ∧
        ∀ e ∈ g.edgesAt w, e.target < g.len := by
  constructor
  · intro h w hw
    rw [AudioGraph.edgesAt_eq g w hw]
    exact h _ (List.getElem_mem hw)
  · intro h nd hnd
    obtain ⟨w, hw, hnd⟩ := List.mem_iff_getElem.mp hnd
    have := h w hw
    rw [AudioGraph.edgesAt_eq g w hw, hnd] at this
    exact this

theorem graphWF_pushEdge {I D : Type} (g : AudioGraph I D) (u : ℕ) (e : Edge)
    (hu : u < g.len) (hv : e.target < g.len)
    (hdup : containsEdge (g.edgesAt u) e.target = false)
    (hWF : GraphWF g) : GraphWF (g.pushEdgeAt u e) := by
  rw [graphWF_iff]
  intro w hw
  rw [AudioGraph.pushEdgeAt_len] at hw
  by_cases hwu : w = u
  · subst hwu
    rw [AudioGraph.pushEdgeAt_edgesAt_self g w e hw, List.map_append]
    obtain ⟨h1, h2⟩ := (graphWF_iff g).mp hWF w hw
    have hnotin : e.target ∉ (g.edgesAt w).map Edge.target := by
      intro hmem
      rw [← containsEdge_iff] at hmem
      rw [hmem] at hdup
      exact absurd hdup (by simp)
    constructor
    · rw [List.nodup_append]
      exact ⟨h1, List.nodup_singleton _, by
        simpa [List.disjoint_singleton] using hnotin⟩
    · intro e2 he2
      rw [List.mem_append] at he2
      rcases he2 with h | h
      · rw [AudioGraph.pushEdgeAt_len]
        exact h2 e2 h
      · rw [List.mem_singleton] at h
        subst h
        rw [AudioGraph.pushEdgeAt_len]
        exact hv
  · rw [AudioGraph.pushEdgeAt_edgesAt_other g u w e hwu]
    obtain ⟨h1, h2⟩ := (graphWF_iff g).mp hWF w hw
    exact ⟨h1, fun e2 he2 => by
      rw [AudioGraph.pushEdgeAt_len]
      exact h2 e2 he2⟩

/-- The normal adjacency of a reordered graph, position-wise. -/
theorem reorder_normalAdj_getD {I D : Type} [Inhabited I] [Inhabited D]
    (g : AudioGraph I D) (ord : List ℕ)
    (hperm : ord.Perm (List.range g.len)) (p : ℕ) (hp : p < g.len) :
    ((g.reorder ord).normalAdj).getD p [] =
      ((g.normalAdj).getD (ord.getD p 0) []).map (fun i => ord.indexOf i) := by
  obtain ⟨hlen, hchar⟩ := reorder_nodes g ord hperm
  have hp2 : p < (g.reorder ord).len := by rw [hlen]; exact hp
  rw [AudioGraph.normalAdj_getD, edgesAt_nodeAt _ p hp2, hchar p hp]
  have ho_lt : ord.getD p 0 < g.len := by
    have hplt : p < ord.length := by
      have := hperm.length_eq
      rw [List.length_range] at this
      omega
    have : ord.getD p 0 ∈ ord := by
      rw [List.getD_eq_getElem _ _ hplt]
      exact List.getElem_mem hplt
    rw [hperm.mem_iff, List.mem_range] at this
    exact this
  rw [AudioGraph.normalAdj_getD, edgesAt_nodeAt _ _ ho_lt]
  exact filterMap_retag _ _

/-- Reordering along a topological order restores well-formedness and
the forward-edge invariant. -/
theorem reorder_wf {I D : Type} [Inhabited I] [Inhabited D]
    (g : AudioGraph I D) (ord : List ℕ)
    (hWF : GraphWF g) (hperm : ord.Perm (List.range g.len))
    (htopo : ∀ o w, w ∈ (g.normalAdj).getD o [] →
      ord.indexOf o < ord.indexOf w) :
    GraphWF (g.reorder ord) ∧ ForwardNormal (g.reorder ord) := by
  obtain ⟨hlen, hchar⟩ := reorder_nodes g ord hperm
  have hordlen : ord.length = g.len := by
    have := hperm.length_eq
    rwa [List.length_range] at this
  have hnd : ord.Nodup := hperm.nodup_iff.mpr (List.nodup_range _)
  have hmem_ord : ∀ t, t < g.len → t ∈ ord := by
    intro t ht
    rw [hperm.mem_iff, List.mem_range]
    exact ht
  have ho_lt : ∀ p, p < g.len → ord.getD p 0 < g.len := by
    intro p hp
    have hplt : p < ord.length := by omega
    have : ord.getD p 0 ∈ ord := by
      rw [List.getD_eq_getElem _ _ hplt]
      exact List.getElem_mem hplt
    rw [hperm.mem_iff, List.mem_range] at this
    exact this
  constructor
  · rw [graphWF_iff]
    intro w hw
    rw [hlen] at hw
    have hw2 : w < (g.reorder ord).len := by rw [hlen]; exact hw
    rw [edgesAt_nodeAt _ w hw2, hchar w hw]
    obtain ⟨h1, h2⟩ := (graphWF_iff g).mp hWF (ord.getD w 0) (ho_lt w hw)
    rw [edgesAt_nodeAt _ _ (ho_lt w hw)] at h1 h2
    constructor
    · simp only [List.map_map]
      have hcomp : (Edge.target ∘ fun e => match e with
          | .normal i => Edge.normal (ord.indexOf i)
          | .feedback i => Edge.feedback (ord.indexOf i)) =
          (fun i => ord.indexOf i) ∘ Edge.target := by
        funext e
        cases e <;> rfl
      rw [hcomp, ← List.map_map]
      refine h1.map_on ?_
      intro t1 ht1 t2 ht2 hidx
      have hm1 : t1 ∈ ord := by
        refine hmem_ord t1 ?_
        rw [List.mem_map] at ht1
        obtain ⟨e1, he1, h⟩ := ht1
        exact h ▸ h2 e1 he1
      have hm2 : t2 ∈ ord := by
        refine hmem_ord t2 ?_
        rw [List.mem_map] at ht2
        obtain ⟨e2, he2, h⟩ := ht2
        exact h ▸ h2 e2 he2
      rw [← getD_indexOf_self ord t1 hm1, ← getD_indexOf_self ord t2 hm2, hidx]
    · intro e he
      rw [List.mem_map] at he
      obtain ⟨e0, he0, he⟩ := he
      subst he
      rw [retag_target, hlen]
      have hm : e0.target ∈ ord := hmem_ord _ (h2 e0 he0)
      have := List.indexOf_lt_length.mpr hm
      omega
  · intro p q hq
    by_cases hp : p < g.len
    · rw [reorder_normalAdj_getD g ord hperm p hp] at hq
      rw [List.mem_map] at hq
      obtain ⟨w, hw, hwq⟩ := hq
      have := htopo (ord.getD p 0) w hw
      rw [indexOf_getD_self ord hnd p (by omega)] at this
      omega
    · push_neg at hp
      rw [List.getD_eq_default _ _ (by
        rw [AudioGraph.normalAdj_length, hlen]; exact hp)] at hq
      exact absurd hq (List.not_mem_nil q)

/-- All reachable graphs are well-formed and have forward-pointing
`Normal` edges (hence an acyclic `Normal` subgraph). -/
theorem reachable_wf {I D : Type} [Inhabited I] [Inhabited D] :
    ∀ g : AudioGraph I D, Reachable g → GraphWF g ∧ ForwardNormal g := by
  intro g hg
  induction hg with
  | empty =>
      constructor
      · intro nd hnd
        exact absurd hnd (List.not_mem_nil nd)
      · intro u v hv
        rw [AudioGraph.normalAdj_getD, AudioGraph.edgesAt] at hv
        simp only [List.get?_nil] at hv
        exact absurd hv (List.not_mem_nil v)
  | insert g id data _ ih =>
      obtain ⟨hWF, hFwd⟩ := ih
      constructor
      · intro nd hnd
        rw [AudioGraph.top_level_insert, List.mem_cons] at hnd
        rcases hnd with h | h
        · subst h
          exact ⟨List.nodup_nil, fun e he => absurd he (List.not_mem_nil e)⟩
        · rw [AudioGraph.retargetEdges, List.mem_map] at h
          obtain ⟨nd0, hnd0, hnd⟩ := h
          obtain ⟨h1, h2⟩ := hWF nd0 hnd0
          subst hnd
          constructor
          · simp only [List.map_map]
            have hcomp : (Edge.target ∘ fun e => match e with
                | .normal i => Edge.normal (i + 1)
                | .feedback i => Edge.feedback (i + 1)) =
                ((· + 1) ∘ Edge.target) := by
              funext e
              cases e <;> rfl
            rw [hcomp, ← List.map_map]
            exact h1.map (fun a b => by omega)
          · intro e he
            rw [List.mem_map] at he
            obtain ⟨e0, he0, he⟩ := he
            subst he
            rw [retag_target, AudioGraph.top_level_insert_len]
            have := h2 e0 he0
            omega
      · intro u v hv
        rw [AudioGraph.top_level_insert_normalAdj] at hv
        cases u with
        | zero => exact absurd (by simpa using hv) (List.not_mem_nil v)
        | succ u =>
            rw [List.getD_cons_succ] at hv
            by_cases hu : u < g.normalAdj.length
            · rw [List.getD_eq_getElem _ _ (by rw [List.length_map]; exact hu),
                List.getElem_map] at hv
              rw [List.mem_map] at hv
              obtain ⟨w, hw, hwv⟩ := hv
              have := hFwd u w (by rw [List.getD_eq_getElem _ _ hu]; exact hw)
              omega
            · push_neg at hu
              rw [List.getD_eq_default _ _ (by rw [List.length_map]; exact hu)] at hv
              exact absurd hv (List.not_mem_nil v)
  | connect_step g u v _ hu hv ih =>
      obtain ⟨hWF, hFwd⟩ := ih
      by_cases hdup : containsEdge (g.edgesAt u) v = true
      · have hconn : g.connect u v = (g, none) := by
          rw [AudioGraph.connect, AudioGraph.try_connect_indexes, if_pos hdup]
          rfl
        rw [hconn]
        exact ⟨hWF, hFwd⟩
      · have hdup2 : containsEdge (g.edgesAt u) v = false := by
          simpa using hdup
        have hpush : g.try_connect_indexes u v =
            (g.pushEdgeAt u (.normal v), true) := by
          rw [AudioGraph.try_connect_indexes, if_neg hdup]
        have hWF2 : GraphWF (g.pushEdgeAt u (.normal v)) :=
          graphWF_pushEdge g u (.normal v) hu hv hdup2 hWF
        rcases hsort : topological_sort (g.pushEdgeAt u (.normal v)).normalAdj
          with _ | indices
        · have hconn : g.connect u v =
              ((g.pushEdgeAt u (.normal v)).demoteLastEdge u,
                some ((u, v), none)) := by
            rw [AudioGraph.connect, hpush, if_pos rfl, hsort]
          rw [hconn]
          simp only
          rw [demote_push]
          refine ⟨graphWF_pushEdge g u (.feedback v) hu hv hdup2 hWF, ?_⟩
          intro p q hq
          rw [AudioGraph.normalAdj_pushFeedback] at hq
          exact hFwd p q hq
        · have hconn : g.connect u v =
              ((g.pushEdgeAt u (.normal v)).reorder indices,
                some ((u, v), some indices)) := by
            rw [AudioGraph.connect, hpush, if_pos rfl, hsort]
          rw [hconn]
          have hAdjWF : AdjWF (g.pushEdgeAt u (.normal v)).normalAdj :=
            adjWF_of_graphWF _ hWF2
          have hspec := topological_sort_spec _ hAdjWF indices hsort
          have hperm : indices.Perm (List.range (g.pushEdgeAt u (.normal v)).len) := by
            have := hspec.1
            rwa [AudioGraph.normalAdj_length] at this
          exact reorder_wf _ indices hWF2 hperm
            (fun o w hw => (hspec.2 o w hw).2)

theorem sum_map_set {α : Type} (l : List α) (u : ℕ) (x : α) (f : α → ℕ)
    (hu : u < l.length) :
    ((l.set u x).map f).sum + f (l.getD u x) = (l.map f).sum + f x := by
  induction l generalizing u with
  | nil => simp at hu
  | cons y ys ih =>
      cases u with
      | zero =>
          rw [List.set_cons_zero, List.map_cons, List.map_cons, List.sum_cons,
            List.sum_cons, List.getD_cons_zero]
          omega
      | succ u =>
          rw [List.set_cons_succ, List.map_cons, List.map_cons, List.sum_cons,
            List.sum_cons, List.getD_cons_succ]
          have := ih u (by simpa using hu)
          omega

theorem edgeCount_push {I D : Type} (g : AudioGraph I D) (u : ℕ) (e : Edge)
    (hu : u < g.len) :
    (g.pushEdgeAt u e).edgeCount = g.edgeCount + 1 := by
  have hget : g.ordered_nodes.get? u = some g.ordered_nodes[u] := by
    rw [List.get?_eq_getElem?, List.getElem?_eq_getElem hu]
  have hmod : g.pushEdgeAt u e = ⟨g.ordered_nodes.set u
      { g.ordered_nodes[u] with edges := g.ordered_nodes[u].edges ++ [e] }⟩ := by
    rw [AudioGraph.pushEdgeAt, modifyAt, hget]
  rw [hmod]
  simp only [AudioGraph.edgeCount]
  have := sum_map_set g.ordered_nodes u
    { g.ordered_nodes[u] with edges := g.ordered_nodes[u].edges ++ [e] }
    (fun nd => nd.edges.length) hu
  rw [List.getD_eq_getElem _ _ hu] at this
  simp only [List.length_append, List.length_singleton] at this
  omega

theorem edgeCount_retarget {I D : Type} (g : AudioGraph I D) (f : ℕ → ℕ) :
    (g.retargetEdges f).edgeCount = g.edgeCount := by
  rw [AudioGraph.edgeCount, AudioGraph.edgeCount, AudioGraph.retargetEdges,
    List.map_map]
  congr 1
  refine List.map_congr_left fun nd _ => ?_
  simp [List.length_map]

theorem range_map_getD_nat (l : List ℕ) :
    (List.range l.length).map (fun p => l.getD p 0) = l := by
  refine List.ext_getElem (by simp) ?_
  intro j hj1 hj2
  rw [List.getElem_map, List.getElem_range, List.getD_eq_getElem _ _ hj2]

theorem edgeCount_reorder {I D : Type} [Inhabited I] [Inhabited D]
    (g : AudioGraph I D) (ord : List ℕ)
    (hperm : ord.Perm (List.range g.len)) :
    (g.reorder ord).edgeCount = g.edgeCount := by
  have hordlen : ord.length = g.len := by
    have := hperm.length_eq
    rwa [List.length_range] at this
  have hperm2 : ord.Perm (List.range ord.length) := by rw [hordlen]; exact hperm
  have hg1len : (g.retargetEdges (fun i => ord.indexOf i)).ordered_nodes.length =
      ord.length := by
    rw [AudioGraph.retargetEdges, List.length_map, hordlen]; rfl
  have hps := permute_spec (g.retargetEdges (fun i => ord.indexOf i)).ordered_nodes
    ord hperm2 hg1len
  rw [AudioGraph.reorder]
  have hnodes_perm : (permute (g.retargetEdges (fun i => ord.indexOf i)).ordered_nodes
      ord).Perm (g.retargetEdges (fun i => ord.indexOf i)).ordered_nodes := by
    rw [hps]
    have hmm : (List.range ord.length).map
        (fun p => (g.retargetEdges (fun i => ord.indexOf i)).ordered_nodes.getD
          (ord.getD p 0) default) =
        ((List.range ord.length).map (fun p => ord.getD p 0)).map
          (fun o => (g.retargetEdges (fun i => ord.indexOf i)).ordered_nodes.getD
            o default) := by
      rw [List.map_map]
      rfl
    rw [hmm, range_map_getD_nat]
    have hfin : (List.range ord.length).map
        (fun o => (g.retargetEdges (fun i => ord.indexOf i)).ordered_nodes.getD
          o default) =
        (g.retargetEdges (fun i => ord.indexOf i)).ordered_nodes := by
      rw [← hg1len]
      exact getD_range_map _
    have hmapped := hperm2.map
      (fun o => (g.retargetEdges (fun i => ord.indexOf i)).ordered_nodes.getD o default)
    rw [hfin] at hmapped
    exact hmapped
  have : (⟨permute (g.retargetEdges (fun i => ord.indexOf i)).ordered_nodes ord⟩ :
      AudioGraph I D).edgeCount =
      (g.retargetEdges (fun i => ord.indexOf i)).edgeCount := by
    rw [AudioGraph.edgeCount, AudioGraph.edgeCount]
    exact (hnodes_perm.map _).sum_eq
  rw [this, edgeCount_retarget]

theorem retag_mem_normal_iff (edges : List Edge) (ord : List ℕ) (q : ℕ)
    (htgt : ∀ e ∈ edges, e.target ∈ ord) :
    Edge.normal q ∈ edges ↔
      Edge.normal (ord.indexOf q) ∈ edges.map (fun e => match e with
        | .normal i => Edge.normal (ord.indexOf i)
        | .feedback i => Edge.feedback (ord.indexOf i)) := by
  constructor
  · intro h
    exact List.mem_map.mpr ⟨Edge.normal q, h, rfl⟩
  · intro h
    obtain ⟨e0, he0, heq⟩ := List.mem_map.mp h
    cases e0 with
    | feedback i => exact Edge.noConfusion heq
    | normal q0 =>
        have hii : ord.indexOf q0 = ord.indexOf q := by injection heq
        have hq0m : q0 ∈ ord := htgt _ he0
        by_cases hqm : q ∈ ord
        · have hq0q : q0 = q := by
            rw [← getD_indexOf_self ord q0 hq0m, hii, getD_indexOf_self ord q hqm]
          rwa [hq0q] at he0
        · have h1 : ord.indexOf q0 < ord.length := List.indexOf_lt_length.mpr hq0m
          have h2 : ord.indexOf q = ord.length := List.indexOf_eq_length.mpr hqm
          omega

theorem retag_mem_feedback_iff (edges : List Edge) (ord : List ℕ) (q : ℕ)
    (htgt : ∀ e ∈ edges, e.target ∈ ord) :
    Edge.feedback q ∈ edges ↔
      Edge.feedback (ord.indexOf q) ∈ edges.map (fun e => match e with
        | .normal i => Edge.normal (ord.indexOf i)
        | .feedback i => Edge.feedback (ord.indexOf i)) := by
  constructor
  · intro h
    exact List.mem_map.mpr ⟨Edge.feedback q, h, rfl⟩
  · intro h
    obtain ⟨e0, he0, heq⟩ := List.mem_map.mp h
    cases e0 with
    | normal i => exact Edge.noConfusion heq
    | feedback q0 =>
        have hii : ord.indexOf q0 = ord.indexOf q := by injection heq
        have hq0m : q0 ∈ ord := htgt _ he0
        by_cases hqm : q ∈ ord
        · have hq0q : q0 = q := by
            rw [← getD_indexOf_self ord q0 hq0m, hii, getD_indexOf_self ord q hqm]
          rwa [hq0q] at he0
        · have h1 : ord.indexOf q0 < ord.length := List.indexOf_lt_length.mpr hq0m
          have h2 : ord.indexOf q = ord.length := List.indexOf_eq_length.mpr hqm
          omega

def wgraphA : AudioGraph ℕ ℕ :=
  ⟨[⟨100, 0, [Edge.normal 1]⟩, ⟨101, 0, []⟩]⟩

def wgraphB : AudioGraph ℕ ℕ :=
  ⟨[⟨100, 0, []⟩, ⟨101, 0, [Edge.normal 0]⟩]⟩

def wgraphR : AudioGraph ℕ ℕ :=
  ((((⟨[]⟩ : AudioGraph ℕ ℕ).top_level_insert 100 0).top_level_insert
    101 0).connect 0 1).1

theorem wgraphR_reachable : Reachable wgraphR :=
  Reachable.connect_step _ 0 1
    (Reachable.insert _ 101 0 (Reachable.insert _ 100 0 Reachable.empty))
    (by decide) (by decide)

/-- **C1.** Acyclicity invariant: on every graph reachable through the
public API the topological sort over `Normal` edges succeeds and
returns an ordering whose length equals the node count; and when the
just-pushed `Normal` edge would introduce a cycle, `connect` demotes
exactly that edge to `Feedback` and leaves the existing node ordering
unchanged. -/
theorem connect_acyclicity_invariant {I D : Type} [Inhabited I] [Inhabited D] :
    (∀ g : AudioGraph I D, Reachable g →
      ∃ ord, topological_sort g.normalAdj = some ord ∧ ord.length = g.len) ∧
    (∀ (g : AudioGraph I D) (u v : ℕ), Reachable g → u < g.len → v < g.len →
      containsEdge (g.edgesAt u) v = false →
      ¬ Acyclic ((g.pushEdgeAt u (Edge.normal v)).normalAdj) →
      g.connect u v = (g.pushEdgeAt u (Edge.feedback v), some ((u, v), none))) := by
  constructor
  · intro g hreach
    obtain ⟨hWF, hFwd⟩ := reachable_wf g hreach
    have hAdj := adjWF_of_graphWF g hWF
    obtain ⟨ord, hsort⟩ := topological_sort_isSome_of_forward g.normalAdj hAdj hFwd
    refine ⟨ord, hsort, ?_⟩
    have hperm := (topological_sort_spec g.normalAdj hAdj ord hsort).1
    rw [hperm.length_eq, List.length_range, AudioGraph.normalAdj_length]
  · intro g u v hreach hu hv hdup hcyc
    obtain ⟨hWF, _⟩ := reachable_wf g hreach
    have hWF2 : GraphWF (g.pushEdgeAt u (Edge.normal v)) :=
      graphWF_pushEdge g u (Edge.normal v) hu hv hdup hWF
    have htry : g.try_connect_indexes u v =
        (g.pushEdgeAt u (Edge.normal v), true) := by
      rw [AudioGraph.try_connect_indexes, hdup]
      simp
    have hsort : topological_sort (g.pushEdgeAt u (Edge.normal v)).normalAdj =
        none := by
      rcases h : topological_sort (g.pushEdgeAt u (Edge.normal v)).normalAdj
        with _ | ord
      · rfl
      · exact absurd (acyclic_of_topological_sort_some _
          (adjWF_of_graphWF _ hWF2) ord h) hcyc
    rw [AudioGraph.connect, htry]
    show (match topological_sort (g.pushEdgeAt u (Edge.normal v)).normalAdj with
      | some indices =>
          ((g.pushEdgeAt u (Edge.normal v)).reorder indices,
            some ((u, v), some indices))
      | none =>
          ((g.pushEdgeAt u (Edge.normal v)).demoteLastEdge u,
            some ((u, v), none))) =
      (g.pushEdgeAt u (Edge.feedback v), some ((u, v), none))
    rw [hsort]
    show ((g.pushEdgeAt u (Edge.normal v)).demoteLastEdge u,
      some ((u, v), none)) = _
    rw [demote_push]

theorem connect_acyclicity_invariant_witness :
    (∃ ord, topological_sort wgraphR.normalAdj = some ord ∧
      ord.length = wgraphR.len) ∧
    wgraphR.connect 1 0 =
      (wgraphR.pushEdgeAt 1 (Edge.feedback 0), some ((1, 0), none)) := by
  refine ⟨(connect_acyclicity_invariant (I := ℕ) (D := ℕ)).1 wgraphR
    wgraphR_reachable, ?_⟩
  refine (connect_acyclicity_invariant (I := ℕ) (D := ℕ)).2 wgraphR 1 0
    wgraphR_reachable (by decide) (by decide) (by decide) ?_
  intro hAc
  refine hAc 0 (Relation.TransGen.head
    (show (1 : ℕ) ∈
      ((wgraphR.pushEdgeAt 1 (Edge.normal 0)).normalAdj).getD 0 [] by decide)
    (Relation.TransGen.single
      (show (0 : ℕ) ∈
        ((wgraphR.pushEdgeAt 1 (Edge.normal 0)).normalAdj).getD 1 [] by decide)))

/-- **C4.** Duplicate-edge rejection with atomicity: if `from` already
has any edge (either kind) to `to`, `connect` returns `None` and leaves
the graph completely unchanged; otherwise it adds exactly one edge and
returns `Some ((from, to), p)` where `p` is the permutation when the
sort succeeded and `None` when the edge was demoted. -/
theorem connect_duplicate_rejection {I D : Type} [Inhabited I] [Inhabited D]
    (g : AudioGraph I D) (u v : ℕ) (hWF : GraphWF g) (hu : u < g.len)
    (hv : v < g.len) :
    (containsEdge (g.edgesAt u) v = true → g.connect u v = (g, none)) ∧
    (containsEdge (g.edgesAt u) v = false →
      (g.connect u v).2 =
        some ((u, v),
          topological_sort ((g.pushEdgeAt u (Edge.normal v)).normalAdj)) ∧
      (g.connect u v).1.edgeCount = g.edgeCount + 1) := by
  constructor
  · intro hdup
    have htry : g.try_connect_indexes u v = (g, false) := by
      rw [AudioGraph.try_connect_indexes, if_pos hdup]
    rw [AudioGraph.connect, htry]
    rfl
  · intro hdup
    have htry : g.try_connect_indexes u v =
        (g.pushEdgeAt u (Edge.normal v), true) := by
      rw [AudioGraph.try_connect_indexes, hdup]
      simp
    have hWF2 : GraphWF (g.pushEdgeAt u (Edge.normal v)) :=
      graphWF_pushEdge g u (Edge.normal v) hu hv hdup hWF
    rcases hsort : topological_sort (g.pushEdgeAt u (Edge.normal v)).normalAdj
      with _ | ord
    · have hconn : g.connect u v =
          ((g.pushEdgeAt u (Edge.normal v)).demoteLastEdge u,
            some ((u, v), none)) := by
        rw [AudioGraph.connect, htry]
        show (match topological_sort
            (g.pushEdgeAt u (Edge.normal v)).normalAdj with
          | some indices =>
              ((g.pushEdgeAt u (Edge.normal v)).reorder indices,
                some ((u, v), some indices))
          | none =>
              ((g.pushEdgeAt u (Edge.normal v)).demoteLastEdge u,
                some ((u, v), none))) = _
        rw [hsort]
      rw [hconn]
      refine ⟨rfl, ?_⟩
      show ((g.pushEdgeAt u (Edge.normal v)).demoteLastEdge u).edgeCount =
        g.edgeCount + 1
      rw [demote_push]
      exact edgeCount_push g u (Edge.feedback v) hu
    · have hconn : g.connect u v =
          ((g.pushEdgeAt u (Edge.normal v)).reorder ord,
            some ((u, v), some ord)) := by
        rw [AudioGraph.connect, htry]
        show (match topological_sort
            (g.pushEdgeAt u (Edge.normal v)).normalAdj with
          | some indices =>
              ((g.pushEdgeAt u (Edge.normal v)).reorder indices,
                some ((u, v), some indices))
          | none =>
              ((g.pushEdgeAt u (Edge.normal v)).demoteLastEdge u,
                some ((u, v), none))) = _
        rw [hsort]
      rw [hconn]
      refine ⟨rfl, ?_⟩
      have hperm : ord.Perm
          (List.range (g.pushEdgeAt u (Edge.normal v)).len) := by
        have := (topological_sort_spec _ (adjWF_of_graphWF _ hWF2) ord hsort).1
        rwa [AudioGraph.normalAdj_length] at this
      show ((g.pushEdgeAt u (Edge.normal v)).reorder ord).edgeCount =
        g.edgeCount + 1
      rw [edgeCount_reorder _ ord hperm]
      exact edgeCount_push g u (Edge.normal v) hu

theorem connect_duplicate_rejection_witness :
    (wgraphA.connect 0 1 = (wgraphA, none)) ∧
    (wgraphA.connect 1 0).2 =
      some ((1, 0),
        topological_sort ((wgraphA.pushEdgeAt 1 (Edge.normal 0)).normalAdj)) ∧
    (wgraphA.connect 1 0).1.edgeCount = wgraphA.edgeCount + 1 := by
  refine ⟨(connect_duplicate_rejection wgraphA 0 1 ?_ (by decide)
      (by decide)).1 (by decide),
    (connect_duplicate_rejection wgraphA 1 0 ?_ (by decide)
      (by decide)).2 (by decide)⟩
  · unfold GraphWF
    decide
  · unfold GraphWF
    decide

/-- **C3.** Permutation validity: a successful topological sort returns
a permutation of `[0..n)`; and `reorder` moves each node payload to its
new position while rewriting every edge target to that target node's
new position, so every edge connects the same two node payloads before
and after the reordering. -/
theorem connect_reorder_permutation_validity {I D : Type}
    [Inhabited I] [Inhabited D] :
    (∀ (g : AudioGraph I D) (ord : List ℕ), GraphWF g →
      topological_sort g.normalAdj = some ord →
      ord.Perm (List.range g.len)) ∧
    (∀ (g : AudioGraph I D) (ord : List ℕ), GraphWF g →
      ord.Perm (List.range g.len) →
      (g.reorder ord).len = g.len ∧
      ∀ w, w < g.len →
        ((g.reorder ord).nodeAt (ord.indexOf w)).id = (g.nodeAt w).id ∧
        ((g.reorder ord).nodeAt (ord.indexOf w)).data = (g.nodeAt w).data ∧
        ∀ q,
          (Edge.normal q ∈ (g.nodeAt w).edges ↔
            Edge.normal (ord.indexOf q) ∈
              ((g.reorder ord).nodeAt (ord.indexOf w)).edges) ∧
          (Edge.feedback q ∈ (g.nodeAt w).edges ↔
            Edge.feedback (ord.indexOf q) ∈
              ((g.reorder ord).nodeAt (ord.indexOf w)).edges)) := by
  constructor
  · intro g ord hWF hsort
    have := (topological_sort_spec g.normalAdj (adjWF_of_graphWF g hWF)
      ord hsort).1
    rwa [AudioGraph.normalAdj_length] at this
  · intro g ord hWF hperm
    have hr := reorder_nodes g ord hperm
    refine ⟨hr.1, ?_⟩
    intro w hw
    have hordlen : ord.length = g.len := by
      have := hperm.length_eq
      rwa [List.length_range] at this
    have hwmem : w ∈ ord := hperm.mem_iff.mpr (List.mem_range.mpr hw)
    have hidx : ord.indexOf w < g.len := by
      have := List.indexOf_lt_length.mpr hwmem
      omega
    have hnode := hr.2 (ord.indexOf w) hidx
    rw [getD_indexOf_self ord w hwmem] at hnode
    have htgt : ∀ e ∈ (g.nodeAt w).edges, e.target ∈ ord := by
      intro e he
      have hmem : g.nodeAt w ∈ g.ordered_nodes := by
        rw [AudioGraph.nodeAt, List.getD_eq_getElem _ _ hw]
        exact List.getElem_mem hw
      have := (hWF _ hmem).2 e he
      exact hperm.mem_iff.mpr (List.mem_range.mpr this)
    refine ⟨by rw [hnode], by rw [hnode], ?_⟩
    intro q
    constructor
    · rw [hnode]
      exact retag_mem_normal_iff (g.nodeAt w).edges ord q htgt
    · rw [hnode]
      exact retag_mem_feedback_iff (g.nodeAt w).edges ord q htgt

theorem connect_reorder_permutation_validity_witness :
    ([1, 0] : List ℕ).Perm (List.range wgraphB.len) ∧
    (wgraphB.reorder [1, 0]).len = wgraphB.len ∧
    (((wgraphB.reorder [1, 0]).nodeAt (([1, 0] : List ℕ).indexOf 1)).id =
        (wgraphB.nodeAt 1).id ∧
      ((wgraphB.reorder [1, 0]).nodeAt (([1, 0] : List ℕ).indexOf 1)).data =
        (wgraphB.nodeAt 1).data ∧
      ∀ q,
        (Edge.normal q ∈ (wgraphB.nodeAt 1).edges ↔
          Edge.normal (([1, 0] : List ℕ).indexOf q) ∈
            ((wgraphB.reorder [1, 0]).nodeAt
              (([1, 0] : List ℕ).indexOf 1)).edges) ∧
        (Edge.feedback q ∈ (wgraphB.nodeAt 1).edges ↔
          Edge.feedback (([1, 0] : List ℕ).indexOf q) ∈
            ((wgraphB.reorder [1, 0]).nodeAt
              (([1, 0] : List ℕ).indexOf 1)).edges)) := by
  have h1 := (connect_reorder_permutation_validity (I := ℕ) (D := ℕ)).1
    wgraphB [1, 0] (by unfold GraphWF; decide) (by decide)
  have h2 := (connect_reorder_permutation_validity (I := ℕ) (D := ℕ)).2
    wgraphB [1, 0] (by unfold GraphWF; decide) (by decide)
  exact ⟨h1, h2.1, h2.2 1 (by decide)⟩

/-! ## Per-block schedule processing (src/dsp/processor.rs, `AudioGraph::process`)

The schedule is the `nodes`/`edges` pair of the processor-side
`AudioGraph`.  A node is modelled as a processor state `S` paired with
its persistent `sample_buffer`, whose per-voice contents live in an
additive commutative monoid `M` (the `+=` loops add buffers
pointwise).  `pstep i` is node `i`'s `Processor::process`: it consumes
the buffer in place and leaves the node's output in it.  One call to
`AudioGraph::process` walks the nodes in schedule order, processes each
node, sends the output of sink nodes (empty successor list) to
`inputs`, and adds the output into every successor's buffer.  Buffers
are never cleared. -/

def addTo {S M : Type} [AddCommMonoid M] (st : List (S × M)) (j : ℕ)
    (x : M) : List (S × M) :=
  match st.get? j with
  | some p => st.set j (p.1, p.2 + x)
  | none => st

def distribOne {S M : Type} [AddCommMonoid M] (st : List (S × M))
    (i j : ℕ) : List (S × M) :=
  match st.get? i with
  | some p => addTo st j p.2
  | none => st

def processStep {S M : Type} [AddCommMonoid M] (pstep : ℕ → S → M → S × M)
    (edges : List (List ℕ)) (acc : List (S × M) × M) (i : ℕ) :
    List (S × M) × M :=
  match acc.1.get? i with
  | none => acc
  | some sb =>
      ((edges.getD i []).foldl (fun a j => distribOne a i j)
          (acc.1.set i (pstep i sb.1 sb.2)),
        if (edges.getD i []).isEmpty then acc.2 + (pstep i sb.1 sb.2).2
        else acc.2)

/-- `AudioGraph::process` (processor side): fold `processStep` over the
nodes in schedule order. -/
def processBlock {S M : Type} [AddCommMonoid M] (pstep : ℕ → S → M → S × M)
    (edges : List (List ℕ)) (st : List (S × M)) (inputs : M) :
    List (S × M) × M :=
  (List.range st.length).foldl (processStep pstep edges) (st, inputs)

/-- The per-node outputs of one block, node by node: node `m` consumes
its start-of-block buffer plus the already-computed outputs of the
earlier nodes that list `m` as a successor. -/
def blockOuts {S M : Type} [Inhabited S] [AddCommMonoid M]
    (pstep : ℕ → S → M → S × M) (edges : List (List ℕ))
    (st : List (S × M)) : ℕ → List (S × M)
  | 0 => []
  | m + 1 =>
      blockOuts pstep edges st m ++
        [pstep m (st.getD m (default, 0)).1
          ((st.getD m (default, 0)).2 +
            (Finset.range m).sum (fun k =>
              if m ∈ edges.getD k [] then
                ((blockOuts pstep edges st m).getD k (default, 0)).2
              else 0))]

/-- New processor state and block output of node `j`. -/
def blockOut {S M : Type} [Inhabited S] [AddCommMonoid M]
    (pstep : ℕ → S → M → S × M) (edges : List (List ℕ))
    (st : List (S × M)) (j : ℕ) : S × M :=
  (blockOuts pstep edges st st.length).getD j (default, 0)

theorem getD_map_range {α : Type} (n j : ℕ) (f : ℕ → α) (d : α)
    (hj : j < n) : ((List.range n).map f).getD j d = f j := by
  have hj2 : j < ((List.range n).map f).length := by simpa using hj
  rw [List.getD_eq_getElem _ _ hj2, List.getElem_map, List.getElem_range]

theorem addTo_length {S M : Type} [AddCommMonoid M] (st : List (S × M))
    (j : ℕ) (x : M) : (addTo st j x).length = st.length := by
  rw [addTo]
  rcases st.get? j with _ | p
  · rfl
  · exact List.length_set st j _

theorem distribOne_length {S M : Type} [AddCommMonoid M]
    (st : List (S × M)) (i j : ℕ) :
    (distribOne st i j).length = st.length := by
  rw [distribOne]
  rcases st.get? i with _ | p
  · rfl
  · exact addTo_length st j _

theorem distribFold_length {S M : Type} [AddCommMonoid M] (l : List ℕ)
    (m : ℕ) (st : List (S × M)) :
    (l.foldl (fun a j => distribOne a m j) st).length = st.length := by
  induction l generalizing st with
  | nil => rfl
  | cons j l ih => rw [List.foldl_cons, ih, distribOne_length]

theorem blockOuts_length {S M : Type} [Inhabited S] [AddCommMonoid M]
    (pstep : ℕ → S → M → S × M) (edges : List (List ℕ))
    (st : List (S × M)) (m : ℕ) :
    (blockOuts pstep edges st m).length = m := by
  induction m with
  | zero => rfl
  | succ m ih => rw [blockOuts, List.length_append, ih]; rfl

theorem blockOuts_mono {S M : Type} [Inhabited S] [AddCommMonoid M]
    (pstep : ℕ → S → M → S × M) (edges : List (List ℕ))
    (st : List (S × M)) (m m2 j : ℕ) (h : m ≤ m2) (hj : j < m) :
    (blockOuts pstep edges st m2).getD j (default, 0) =
      (blockOuts pstep edges st m).getD j (default, 0) := by
  induction m2 with
  | zero => omega
  | succ m2 ih =>
      rcases Nat.lt_or_ge m (m2 + 1) with hlt | hge
      · have hm2 : m ≤ m2 := by omega
        rw [blockOuts, List.getD_eq_getElem?_getD, List.getElem?_append,
          if_pos (by rw [blockOuts_length]; omega),
          ← List.getD_eq_getElem?_getD, ih hm2]
      · have : m = m2 + 1 := by omega
        rw [this]

theorem blockOut_eq {S M : Type} [Inhabited S] [AddCommMonoid M]
    (pstep : ℕ → S → M → S × M) (edges : List (List ℕ))
    (st : List (S × M)) (j : ℕ) (hj : j < st.length) :
    blockOut pstep edges st j =
      pstep j (st.getD j (default, 0)).1
        ((st.getD j (default, 0)).2 +
          (Finset.range j).sum (fun k =>
            if j ∈ edges.getD k [] then (blockOut pstep edges st k).2
            else 0)) := by
  rw [blockOut, blockOuts_mono pstep edges st (j + 1) st.length j hj
    (by omega), blockOuts, List.getD_eq_getElem?_getD,
    List.getElem?_append_right (by rw [blockOuts_length])]
  rw [blockOuts_length]
  simp only [Nat.sub_self, List.getElem?_cons_zero, Option.getD_some]
  congr 1
  refine congrArg _ (Finset.sum_congr rfl fun k hk => ?_)
  have hk2 : k < j := Finset.mem_range.mp hk
  rw [blockOut, blockOuts_mono pstep edges st j st.length k
    (by omega) hk2]

theorem get?_map_range {α : Type} (n j : ℕ) (f : ℕ → α) (hj : j < n) :
    ((List.range n).map f).get? j = some (f j) := by
  rw [List.get?_eq_getElem?, List.getElem?_eq_getElem (by simpa using hj),
    List.getElem_map, List.getElem_range]

theorem processStep_get {S M : Type} [AddCommMonoid M]
    (pstep : ℕ → S → M → S × M) (edges : List (List ℕ))
    (acc : List (S × M) × M) (i : ℕ) (sb : S × M)
    (h : acc.1.get? i = some sb) :
    processStep pstep edges acc i =
      ((edges.getD i []).foldl (fun a j => distribOne a i j)
          (acc.1.set i (pstep i sb.1 sb.2)),
        if (edges.getD i []).isEmpty then acc.2 + (pstep i sb.1 sb.2).2
        else acc.2) := by
  rw [processStep, h]

theorem distribFold_getD {S M : Type} [Inhabited S] [AddCommMonoid M]
    (l : List ℕ) (m : ℕ) :
    ∀ st : List (S × M), m ∉ l → l.Nodup → m < st.length →
      ∀ w, (l.foldl (fun a j => distribOne a m j) st).getD w (default, 0) =
        if w ∈ l ∧ w < st.length then
          ((st.getD w (default, 0)).1,
            (st.getD w (default, 0)).2 + (st.getD m (default, 0)).2)
        else st.getD w (default, 0) := by
  induction l with
  | nil =>
      intro st hm hnd hmlt w
      simp
  | cons j l ih =>
      intro st hm hnd hmlt w
      rw [List.foldl_cons]
      have hmj : m ≠ j := fun h => hm (h ▸ List.mem_cons_self j l)
      have hml : m ∉ l := fun h => hm (List.mem_cons_of_mem j h)
      have hjl : j ∉ l := (List.nodup_cons.mp hnd).1
      have hndl : l.Nodup := (List.nodup_cons.mp hnd).2
      have hgm : st.get? m = some (st.getD m (default, 0)) := by
        rw [List.get?_eq_getElem?, List.getElem?_eq_getElem hmlt,
          List.getD_eq_getElem _ _ hmlt]
      have hd1 : distribOne st m j = addTo st j (st.getD m (default, 0)).2 := by
        rw [distribOne, hgm]
      rw [hd1]
      by_cases hjlt : j < st.length
      · have hgj : st.get? j = some (st.getD j (default, 0)) := by
          rw [List.get?_eq_getElem?, List.getElem?_eq_getElem hjlt,
            List.getD_eq_getElem _ _ hjlt]
        have ha : addTo st j (st.getD m (default, 0)).2 =
            st.set j ((st.getD j (default, 0)).1,
              (st.getD j (default, 0)).2 + (st.getD m (default, 0)).2) := by
          rw [addTo, hgj]
        rw [ha, ih (st.set j ((st.getD j (default, 0)).1,
            (st.getD j (default, 0)).2 + (st.getD m (default, 0)).2)) hml hndl
          (by rw [List.length_set]; exact hmlt) w]
        by_cases hwj : w = j
        · subst hwj
          rw [if_neg (fun hc => hjl hc.1),
            getD_set_self st w _ (default, 0) hjlt,
            if_pos ⟨List.mem_cons_self w l, hjlt⟩]
        · have hsw : (st.set j ((st.getD j (default, 0)).1,
              (st.getD j (default, 0)).2 +
                (st.getD m (default, 0)).2)).getD w (default, 0) =
              st.getD w (default, 0) :=
            getD_set_ne st _ (default, 0) (fun h => hwj h.symm)
          have hsm : (st.set j ((st.getD j (default, 0)).1,
              (st.getD j (default, 0)).2 +
                (st.getD m (default, 0)).2)).getD m (default, 0) =
              st.getD m (default, 0) :=
            getD_set_ne st _ (default, 0) (fun h => hmj h.symm)
          rw [hsw, hsm, List.length_set]
          have hiff : (w ∈ l ∧ w < st.length) ↔
              (w ∈ j :: l ∧ w < st.length) := by
            constructor
            · rintro ⟨h1, h2⟩
              exact ⟨List.mem_cons_of_mem j h1, h2⟩
            · rintro ⟨h1, h2⟩
              rcases List.mem_cons.mp h1 with h1 | h1
              · exact absurd h1 hwj
              · exact ⟨h1, h2⟩
          rw [if_congr hiff rfl rfl]
      · have ha : addTo st j (st.getD m (default, 0)).2 = st := by
          rw [addTo, List.get?_eq_getElem?, List.getElem?_eq_none (by omega)]
        rw [ha, ih st hml hndl hmlt w]
        have hiff : (w ∈ l ∧ w < st.length) ↔
            (w ∈ j :: l ∧ w < st.length) := by
          constructor
          · rintro ⟨h1, h2⟩
            exact ⟨List.mem_cons_of_mem j h1, h2⟩
          · rintro ⟨h1, h2⟩
            rcases List.mem_cons.mp h1 with h1 | h1
            · subst h1
              omega
            · exact ⟨h1, h2⟩
        rw [if_congr hiff rfl rfl]

/-- Contributions that node `j` receives from strictly later nodes
during the first `m` steps of a block (these are never consumed in the
current block). -/
def sAfter {S M : Type} [Inhabited S] [AddCommMonoid M]
    (pstep : ℕ → S → M → S × M) (edges : List (List ℕ))
    (st : List (S × M)) (m j : ℕ) : M :=
  (Finset.range m).sum (fun k =>
    if j < k ∧ j ∈ edges.getD k [] then (blockOut pstep edges st k).2
    else 0)

/-- Contributions already delivered to a not-yet-processed node `j` by
the first `m` steps of a block (all of them from earlier nodes). -/
def sBefore {S M : Type} [Inhabited S] [AddCommMonoid M]
    (pstep : ℕ → S → M → S × M) (edges : List (List ℕ))
    (st : List (S × M)) (m j : ℕ) : M :=
  (Finset.range m).sum (fun k =>
    if j ∈ edges.getD k [] then (blockOut pstep edges st k).2 else 0)

/-- Node `j`'s slot after `m` steps of a block. -/
def invEntry {S M : Type} [Inhabited S] [AddCommMonoid M]
    (pstep : ℕ → S → M → S × M) (edges : List (List ℕ))
    (st : List (S × M)) (m j : ℕ) : S × M :=
  if j < m then
    ((blockOut pstep edges st j).1,
      (blockOut pstep edges st j).2 + sAfter pstep edges st m j)
  else
    ((st.getD j (default, 0)).1,
      (st.getD j (default, 0)).2 + sBefore pstep edges st m j)

/-- Output delivered to the caller by the sink nodes among the first
`m` steps of a block. -/
def sinkAcc {S M : Type} [Inhabited S] [AddCommMonoid M]
    (pstep : ℕ → S → M → S × M) (edges : List (List ℕ))
    (st : List (S × M)) (m : ℕ) : M :=
  (Finset.range m).sum (fun i =>
    if (edges.getD i []).isEmpty then (blockOut pstep edges st i).2 else 0)

theorem processBlock_inv {S M : Type} [Inhabited S] [AddCommMonoid M]
    (pstep : ℕ → S → M → S × M) (edges : List (List ℕ))
    (st : List (S × M)) (inputs : M)
    (hself : ∀ i, i < st.length → i ∉ edges.getD i [])
    (hnd : ∀ i, i < st.length → (edges.getD i []).Nodup)
    (hedge : ∀ i, i < st.length → ∀ j ∈ edges.getD i [], j < st.length) :
    ∀ m, m ≤ st.length →
      (List.range m).foldl (processStep pstep edges) (st, inputs) =
        ((List.range st.length).map (invEntry pstep edges st m),
          inputs + sinkAcc pstep edges st m) := by
  intro m
  induction m with
  | zero =>
      intro _
      rw [List.range_zero, List.foldl_nil, sinkAcc, Finset.range_zero,
        Finset.sum_empty, add_zero]
      congr 1
      refine List.ext_getElem (by simp) ?_
      intro p h1 h2
      rw [List.getElem_map, List.getElem_range, invEntry,
        if_neg (Nat.not_lt_zero p), sBefore, Finset.range_zero,
        Finset.sum_empty, add_zero, List.getD_eq_getElem st _ h1]
  | succ m ih =>
      intro hm1
      have hmlt : m < st.length := by omega
      have hmn : m ≤ st.length := by omega
      rw [List.range_succ, List.foldl_append, List.foldl_cons, List.foldl_nil,
        ih hmn]
      have hsb : ((List.range st.length).map (invEntry pstep edges st m),
          inputs + sinkAcc pstep edges st m).1.get? m =
          some ((st.getD m (default, 0)).1,
            (st.getD m (default, 0)).2 + sBefore pstep edges st m m) := by
      -- the slot of the not-yet-processed node m
        show ((List.range st.length).map (invEntry pstep edges st m)).get? m = _
        rw [get?_map_range st.length m _ hmlt, invEntry, if_neg (lt_irrefl m)]
      rw [processStep_get pstep edges _ m _ hsb]
      have hout : pstep m (st.getD m (default, 0)).1
          ((st.getD m (default, 0)).2 + sBefore pstep edges st m m) =
          blockOut pstep edges st m := by
        rw [sBefore]
        exact (blockOut_eq pstep edges st m hmlt).symm
      rw [hout]
      show ((edges.getD m []).foldl (fun a j => distribOne a m j)
          (((List.range st.length).map (invEntry pstep edges st m)).set m
            (blockOut pstep edges st m)),
        if (edges.getD m []).isEmpty then
          (inputs + sinkAcc pstep edges st m) + (blockOut pstep edges st m).2
        else inputs + sinkAcc pstep edges st m) =
        ((List.range st.length).map (invEntry pstep edges st (m + 1)),
          inputs + sinkAcc pstep edges st (m + 1))
      have hsink : sinkAcc pstep edges st (m + 1) =
          sinkAcc pstep edges st m +
            (if (edges.getD m []).isEmpty then
              (blockOut pstep edges st m).2 else 0) := by
        simp only [sinkAcc]
        rw [Finset.sum_range_succ]
      congr 1
      · -- the node slots
        refine List.ext_getElem (by rw [distribFold_length, List.length_set]; simp) ?_
        intro w h1 h2
        have hw : w < st.length := by simpa using h2
        rw [← List.getD_eq_getElem _ (default, 0) h1,
          ← List.getD_eq_getElem _ (default, 0) h2,
          distribFold_getD (edges.getD m []) m _ (hself m hmlt) (hnd m hmlt)
            (by rw [List.length_set]; simpa using hmlt) w,
          getD_map_range st.length w _ _ hw]
        have hstlen : (((List.range st.length).map
            (invEntry pstep edges st m)).set m
              (blockOut pstep edges st m)).length = st.length := by
          rw [List.length_set]
          simp
        have hstm : (((List.range st.length).map
            (invEntry pstep edges st m)).set m
              (blockOut pstep edges st m)).getD m (default, 0) =
            blockOut pstep edges st m :=
          getD_set_self _ m _ _ (by simpa using hmlt)
        by_cases hwm : w = m
        · subst hwm
          rw [if_neg (fun hc => hself w hmlt hc.1), hstm, invEntry,
            if_pos (Nat.lt_succ_self w)]
          have hz : sAfter pstep edges st (w + 1) w = 0 := by
            rw [sAfter]
            refine Finset.sum_eq_zero fun k hk => ?_
            have hk2 := Finset.mem_range.mp hk
            exact if_neg (fun hc => absurd hc.1 (by omega))
          rw [hz, add_zero]
        · have hstw : (((List.range st.length).map
              (invEntry pstep edges st m)).set m
                (blockOut pstep edges st m)).getD w (default, 0) =
              invEntry pstep edges st m w := by
            rw [getD_set_ne _ _ _ (fun h => hwm h.symm),
              getD_map_range st.length w _ _ hw]
          rw [hstw, hstm, hstlen]
          by_cases hwe : w ∈ edges.getD m []
          · have hwlt : w < st.length := hedge m hmlt w hwe
            rw [if_pos ⟨hwe, hwlt⟩]
            simp only [invEntry]
            by_cases hwm2 : w < m
            · rw [if_pos hwm2, if_pos (by omega : w < m + 1)]
              have hsa : sAfter pstep edges st (m + 1) w =
                  sAfter pstep edges st m w +
                    (blockOut pstep edges st m).2 := by
                simp only [sAfter]
                rw [Finset.sum_range_succ, if_pos ⟨hwm2, hwe⟩]
              rw [hsa]
              show ((blockOut pstep edges st w).1,
                ((blockOut pstep edges st w).2 + sAfter pstep edges st m w) +
                  (blockOut pstep edges st m).2) =
                ((blockOut pstep edges st w).1,
                  (blockOut pstep edges st w).2 +
                    (sAfter pstep edges st m w +
                      (blockOut pstep edges st m).2))
              rw [add_assoc]
            · rw [if_neg hwm2, if_neg (by omega : ¬ w < m + 1)]
              have hsb2 : sBefore pstep edges st (m + 1) w =
                  sBefore pstep edges st m w +
                    (blockOut pstep edges st m).2 := by
                simp only [sBefore]
                rw [Finset.sum_range_succ, if_pos hwe]
              rw [hsb2]
              show ((st.getD w (default, 0)).1,
                ((st.getD w (default, 0)).2 + sBefore pstep edges st m w) +
                  (blockOut pstep edges st m).2) =
                ((st.getD w (default, 0)).1,
                  (st.getD w (default, 0)).2 +
                    (sBefore pstep edges st m w +
                      (blockOut pstep edges st m).2))
              rw [add_assoc]
          · rw [if_neg (fun hc => hwe hc.1)]
            simp only [invEntry]
            by_cases hwm2 : w < m
            · rw [if_pos hwm2, if_pos (by omega : w < m + 1)]
              have hsa : sAfter pstep edges st (m + 1) w =
                  sAfter pstep edges st m w := by
                simp only [sAfter]
                rw [Finset.sum_range_succ, if_neg (fun hc => hwe hc.2),
                  add_zero]
              rw [hsa]
            · rw [if_neg hwm2, if_neg (by omega : ¬ w < m + 1)]
              have hsb2 : sBefore pstep edges st (m + 1) w =
                  sBefore pstep edges st m w := by
                simp only [sBefore]
                rw [Finset.sum_range_succ, if_neg hwe, add_zero]
              rw [hsb2]
      · -- the accumulated caller output
        rw [hsink]
        by_cases hemp : (edges.getD m []).isEmpty = true
        · rw [if_pos hemp, if_pos hemp, add_assoc]
        · rw [if_neg hemp, if_neg hemp, add_zero]

/-- **C2.** Feedback latency of the per-block schedule.  One call to
`AudioGraph::process` (`processBlock`) ends with node `j`'s buffer
holding its own block output plus exactly the contributions of the
later nodes `k > j` that feed `j` — those are never consumed in the
current block and, since buffers are not cleared, they are what `j`'s
processor reads next block.  Meanwhile (second conjunct) node `j`'s
processor consumed its start-of-block buffer plus exactly the
same-block outputs of the earlier nodes `k < j` that feed `j`. -/
theorem process_feedback_latency {S M : Type} [Inhabited S] [AddCommMonoid M]
    (pstep : ℕ → S → M → S × M) (edges : List (List ℕ))
    (st : List (S × M)) (inputs : M)
    (hself : ∀ i, i < st.length → i ∉ edges.getD i [])
    (hnd : ∀ i, i < st.length → (edges.getD i []).Nodup)
    (hedge : ∀ i, i < st.length → ∀ j ∈ edges.getD i [], j < st.length) :
    processBlock pstep edges st inputs =
      ((List.range st.length).map (fun j =>
        ((blockOut pstep edges st j).1,
          (blockOut pstep edges st j).2 +
            (Finset.range st.length).sum (fun k =>
              if j < k ∧ j ∈ edges.getD k [] then
                (blockOut pstep edges st k).2 else 0))),
        inputs + (Finset.range st.length).sum (fun i =>
          if (edges.getD i []).isEmpty then (blockOut pstep edges st i).2
          else 0)) ∧
    ∀ j, j < st.length →
      blockOut pstep edges st j =
        pstep j (st.getD j (default, 0)).1
          ((st.getD j (default, 0)).2 +
            (Finset.range j).sum (fun k =>
              if j ∈ edges.getD k [] then (blockOut pstep edges st k).2
              else 0)) := by
  refine ⟨?_, fun j hj => blockOut_eq pstep edges st j hj⟩
  rw [processBlock,
    processBlock_inv pstep edges st inputs hself hnd hedge st.length le_rfl]
  congr 1
  refine List.map_congr_left fun j hj => ?_
  rw [invEntry, if_pos (List.mem_range.mp hj), sAfter]

theorem process_feedback_latency_witness :
    processBlock (fun i s b => (s + 1, b + i + 1)) [[1], [0]]
        [((0 : ℕ), (0 : ℕ)), (0, 0)] 5 =
      ((List.range 2).map (fun j =>
        ((blockOut (fun i s b => (s + 1, b + i + 1)) [[1], [0]]
            [((0 : ℕ), (0 : ℕ)), (0, 0)] j).1,
          (blockOut (fun i s b => (s + 1, b + i + 1)) [[1], [0]]
            [((0 : ℕ), (0 : ℕ)), (0, 0)] j).2 +
            (Finset.range 2).sum (fun k =>
              if j < k ∧ j ∈ ([[1], [0]] : List (List ℕ)).getD k [] then
                (blockOut (fun i s b => (s + 1, b + i + 1)) [[1], [0]]
                  [((0 : ℕ), (0 : ℕ)), (0, 0)] k).2 else 0))),
        5 + (Finset.range 2).sum (fun i =>
          if (([[1], [0]] : List (List ℕ)).getD i []).isEmpty then
            (blockOut (fun i s b => (s + 1, b + i + 1)) [[1], [0]]
              [((0 : ℕ), (0 : ℕ)), (0, 0)] i).2
          else 0)) ∧
    ∀ j, j < 2 →
      blockOut (fun i s b => (s + 1, b + i + 1)) [[1], [0]]
          [((0 : ℕ), (0 : ℕ)), (0, 0)] j =
        (fun i s b => (s + 1, b + i + 1)) j
          (([((0 : ℕ), (0 : ℕ)), (0, 0)].getD j (default, 0)).1)
          (([((0 : ℕ), (0 : ℕ)), (0, 0)].getD j (default, 0)).2 +
            (Finset.range j).sum (fun k =>
              if j ∈ ([[1], [0]] : List (List ℕ)).getD k [] then
                (blockOut (fun i s b => (s + 1, b + i + 1)) [[1], [0]]
                  [((0 : ℕ), (0 : ℕ)), (0, 0)] k).2
              else 0)) :=
  process_feedback_latency (fun i s b => (s + 1, b + i + 1)) [[1], [0]]
    [((0 : ℕ), (0 : ℕ)), (0, 0)] 5 (by decide) (by decide) (by decide)

end SimdUtil
